import Mathlib

/-!
# Verification of the tboggle word-finding engine (`libwords.c`)

A shallow embedding of the C word-finding library of the tboggle
repository, together with proofs about it.

The embedding conventions:

* C machine integers are modelled as `Nat` (all the quantities involved are
  non-negative), except where 32-bit overflow semantics matter, in which case
  the two's-complement bit pattern is modelled explicitly (see `maskComputed`).
* the 64-bit bitmask `used` is modelled as its bit pattern, a `Nat < 2^64`;
  `&` and `|` on it are `Nat.land` / `Nat.lor`, which agree bit-for-bit with
  the C operations on the two's-complement representation.
* C strings are modelled as `List Nat` of their bytes (no terminator); the
  empty list corresponds to the empty string, whose first byte is `'\0'`.
* arrays that are indexed by computed indices are modelled as functions
  `Nat → _`.
* the recursion of `find_words` is modelled with an explicit fuel parameter;
  the entry point passes `width*height + 2` fuel, which is proved sufficient
  wherever the claims need it (each recursive level consumes one fresh board
  position, so the depth of the C recursion is bounded by the board size).
-/

namespace TBoggle

/-! ## Found-word hash table (`part_002` lines 25-111)

`#define HASH_SIZE 15877`, `char hash_table[HASH_SIZE][MAX_WORD_LEN + 1]`,
`int used_indices[MAX_WORDS + 1]`, `int used_count`.

A slot is empty iff its first byte is `'\0'`, i.e. iff the stored string is
empty.  `slots` is the table contents, `used_indices` the insertion-order
list of occupied indices (`used_count` is its length). -/

def HASH_SIZE : Nat := 15877

/-- `MAX_WORDS` (`part_002` line 26): `used_indices` and `word_list` are
fixed arrays of `MAX_WORDS + 1` entries, and `get_words` writes the NULL
terminator at index `g_num_words`; the C code stays within these buffers
only while at most `MAX_WORDS` distinct words are stored. -/
def MAX_WORDS : Nat := 5000

/-- `MAX_WORD_LEN` (`part_002` line 27): `g_word` and every hash-table
slot are `MAX_WORD_LEN + 1` bytes, so the C code stays within them only
while every word built by the search is at most `MAX_WORD_LEN`
characters. -/
def MAX_WORD_LEN : Nat := 16

/-- djb2: `hash = hash * 33 + c` in `unsigned int` (i.e. mod 2^32)
arithmetic, then `% HASH_SIZE`. -/
def hash_word (word : List Nat) : Nat :=
  (word.foldl (fun h c => (h * 33 + c) % 4294967296) 5381) % HASH_SIZE

structure HashTable where
  slots : Nat → List Nat
  used_indices : List Nat

/-- The all-empty table (the initial state of the C static array). -/
def emptyHT : HashTable := ⟨fun _ => [], []⟩

/-- The linear-probing loop of `insert`: starting at slot `index`, walk
forward (mod `HASH_SIZE`) until an empty slot (`hash_table[index][0] == '\0'`)
or a slot holding `word` is found.  Returns `(novel?, slot)`.  The `fuel`
parameter bounds the walk; the C loop is unbounded, and exhausting
`HASH_SIZE` fuel corresponds to a table with no empty slot on the probe
path, in which case the C loop would never terminate. -/
def probe (slots : Nat → List Nat) (word : List Nat) : Nat → Nat → Option (Bool × Nat)
  | 0, _ => none
  | fuel + 1, index =>
    if slots index = [] then some (true, index)
    else if slots index = word then some (false, index)
    else probe slots word fuel ((index + 1) % HASH_SIZE)

/-- `insert` of `part_002`: returns `true` and stores the word on novelty
(recording the slot in `used_indices`), `false` on duplicate.  The
fuel-exhausted case of `probe` (unreachable while an empty slot exists)
is mapped to "no insertion". -/
def insert (t : HashTable) (word : List Nat) : Bool × HashTable :=
  match probe t.slots word HASH_SIZE (hash_word word) with
  | some (true, index) =>
      (true, ⟨fun j => if j = index then word else t.slots j,
              t.used_indices ++ [index]⟩)
  | some (false, _) => (false, t)
  | none => (false, t)

/-- `reset_hash_table`: clear exactly the used slots, empty the index list. -/
def reset_hash_table (t : HashTable) : HashTable :=
  ⟨fun j => if j ∈ t.used_indices then [] else t.slots j, []⟩

/-- `walk` + `word_list`: the stored words in `used_indices` order. -/
def walk (t : HashTable) : List (List Nat) :=
  t.used_indices.map t.slots

/-! ## Packed DAWG accessors (`part_002` lines 126-135)

A node is a 32-bit word: bits 0-7 letter, bit 8 end-of-list, bit 9
end-of-word, bits 10-31 first-child index.  The node array is modelled as a
function `Nat → Nat`; entries are `int32_t` in C and the dictionaries in use
keep bit 31 clear, so `>> 10` is division by 1024. -/

def DAWG_LETTER (dawg : Nat → Nat) (i : Nat) : Nat := dawg i % 256

def DAWG_EOW (dawg : Nat → Nat) (i : Nat) : Bool := dawg i / 512 % 2 = 1

def DAWG_EOL (dawg : Nat → Nat) (i : Nat) : Bool := dawg i / 256 % 2 = 1

def DAWG_NEXT (dawg : Nat → Nat) (i : Nat) : Nat :=
  if DAWG_EOL dawg i then 0 else i + 1

def DAWG_CHILD (dawg : Nat → Nat) (i : Nat) : Nat := dawg i / 1024

/-- The sibling-scan loop
`while (i != 0 && DAWG_LETTER(dawg, i) != sought) i = DAWG_NEXT(dawg, i);`.
Fuel bounds the walk; the callers pass the node-array size, which suffices
for every chain that terminates inside the array. -/
def scanSibs (dawg : Nat → Nat) (sought : Nat) : Nat → Nat → Nat
  | 0, i => i
  | fuel + 1, i =>
    if i = 0 then 0
    else if DAWG_LETTER dawg i = sought then i
    else scanSibs dawg sought fuel (DAWG_NEXT dawg i)

/-- Tracing a word letter-by-letter through the DAWG, starting from sibling
chain `i` (the root chain is index 1): the node index at which the last
letter of the word was matched, or `0` if the word is not present as a
path.  This is the evident reading of the packed DAWG as a dictionary, and
is built from exactly the sibling-scan and child accessors the search uses. -/
def traceFrom (dawg : Nat → Nat) (dsize : Nat) (i : Nat) : List Nat → Nat
  | [] => 0
  | [c] => scanSibs dawg c dsize i
  | c :: c2 :: cs =>
    let j := scanSibs dawg c dsize i
    if j = 0 then 0 else traceFrom dawg dsize (DAWG_CHILD dawg j) (c2 :: cs)

/-- Dictionary membership: the word traces to a node carrying the
end-of-word flag. -/
def dawgMem (dawg : Nat → Nat) (dsize : Nat) (w : List Nat) : Bool :=
  let j := traceFrom dawg dsize 1 w
  j ≠ 0 && DAWG_EOW dawg j

/-! ## The tile-position mask (`part_002` line 370)

`const int_least64_t mask = 0x1 << (y * w + x);`

`0x1` has type `int` (32 bits), so the shift is performed in 32-bit
arithmetic and only then converted (sign-extended) to `int_least64_t`.
For `pos ≤ 30` the result is the expected single bit.  For `pos = 31` the
32-bit result is `INT_MIN` (signed overflow, undefined behaviour in C; the
deployed compilers produce the two's-complement pattern), which
sign-extends to a 64-bit value with bits 31-63 all set.  For `pos ≥ 32`
the shift count is out of range (undefined behaviour; the deployed targets
mask the count to 5 bits, i.e. use `pos % 32`).  `maskComputed pos` is the
64-bit bit pattern of the value the code computes under those (standard)
concretisations. -/

def maskComputed (pos : Nat) : Nat :=
  if pos % 32 = 31 then 0xFFFFFFFF80000000 else 2 ^ (pos % 32)

/-- The mask the specification describes: exactly bit `pos` of a 64-bit
value. -/
def specMask (pos : Nat) : Nat := 2 ^ pos

/-! ## Board state and the recursive search (`part_002` lines 214-503)

The C globals that are set up once per call and never written during a
search are gathered in `Env`; the globals mutated by the search
(`hash_table`/`used_indices`, `g_num_words`, `g_longest`, `g_score`,
`g_board_failed`) are the state record `St`.  The word buffer `g_word` is
modelled as the `List Nat` of its first `word_len` bytes, which is the part
every frame reads and writes. -/

structure Env where
  dawg : Nat → Nat
  dsize : Nat
  board_width : Nat
  board_height : Nat
  dice : Nat → Nat
  score_counts : Nat → Nat
  min_words : Nat
  max_words : Nat
  min_score : Nat
  max_score : Nat
  min_longest : Nat
  max_longest : Nat
  min_legal : Nat

structure St where
  tbl : HashTable
  num_words : Nat
  longest : Nat
  score : Nat
  failed : Bool

/-- `g_special_dice` (`part_002` lines 266-273): expansion pairs for tile
codes '0'..'5' (`'_'`=95, `'Q'`=81, `'U'`=85, `'I'`=73, `'N'`=78, `'T'`=84,
`'H'`=72, `'E'`=69, `'R'`=82). -/
def g_special_dice : List (Nat × Nat) :=
  [(95, 95), (81, 85), (73, 78), (84, 72), (69, 82), (72, 69)]

/-- The letters a tile code contributes to a word: codes ≥ 'A' (65) stand
for themselves, smaller codes index `g_special_dice` by `c - '0'`.
(An index past the table is an out-of-bounds read in C; the default `(0,0)`
stands for that unreachable case.) -/
def tileExp (c : Nat) : List Nat :=
  if 65 ≤ c then [c]
  else [(g_special_dice.getD (c - 48) (0, 0)).1, (g_special_dice.getD (c - 48) (0, 0)).2]

/-- `g_deltas` (`part_002` lines 246-250): the 8 neighbour offsets in loop
order. -/
def g_deltas : List (Int × Int) :=
  [(-1, -1), (-1, 0), (-1, 1), (0, -1), (0, 1), (1, -1), (1, 0), (1, 1)]

/-- Board positions as `(y, x)` pairs. -/
def inBounds (E : Env) (p : Nat × Nat) : Prop :=
  p.1 < E.board_height ∧ p.2 < E.board_width

instance (E : Env) (p : Nat × Nat) : Decidable (inBounds E p) :=
  inferInstanceAs (Decidable (_ ∧ _))

def posIdx (E : Env) (p : Nat × Nat) : Nat := p.1 * E.board_width + p.2

def tileAt (E : Env) (p : Nat × Nat) : Nat := E.dice (posIdx E p)

/-- Two positions are adjacent when they differ by one of the 8 deltas. -/
def adjacent (p q : Nat × Nat) : Prop :=
  ∃ dd ∈ g_deltas, (q.1 : Int) = (p.1 : Int) + dd.1 ∧ (q.2 : Int) = (p.2 : Int) + dd.2

instance (p q : Nat × Nat) : Decidable (adjacent p q) :=
  inferInstanceAs (Decidable (∃ dd ∈ g_deltas,
    (q.1 : Int) = (p.1 : Int) + dd.1 ∧ (q.2 : Int) = (p.2 : Int) + dd.2))

/-- The word spelled by a path: the concatenation of the tile expansions. -/
def spell (E : Env) (path : List (Nat × Nat)) : List Nat :=
  (path.map (fun p => tileExp (tileAt E p))).flatten

/-- A legal word path: non-empty, no repeated tile, all tiles on the board,
consecutive tiles adjacent. -/
def GoodPath (E : Env) (path : List (Nat × Nat)) : Prop :=
  path ≠ [] ∧ path.Nodup ∧ (∀ p ∈ path, inBounds E p) ∧ path.Chain' adjacent

/-- A word is spellable on the board if some legal path spells it. -/
def Spellable (E : Env) (w : List Nat) : Prop :=
  ∃ path, GoodPath E path ∧ spell E path = w

/-- The used-mask accumulated along a path (in the order the search ors the
masks in). -/
def usedOf (E : Env) : List (Nat × Nat) → Nat
  | [] => 0
  | p :: rest => maskComputed (posIdx E p) ||| usedOf E rest

/-- The word-acceptance block of `find_words` (`part_002` lines 422-446):
insert; on novelty bump `g_num_words`, `g_score`, `g_longest`, tripping the
fail flag (and aborting) as soon as an upper bound is exceeded. -/
def acceptWord (E : Env) (word : List Nat) (s : St) : Bool × St :=
  let r := insert s.tbl word
  if r.1 then
    let s₁ : St := { s with tbl := r.2, num_words := s.num_words + 1 }
    if E.max_words < s₁.num_words then (false, { s₁ with failed := true })
    else
      let s₂ : St := { s₁ with score := s₁.score + E.score_counts word.length }
      if E.max_score < s₂.score then (false, { s₂ with failed := true })
      else if s₂.longest < word.length then
        let s₃ : St := { s₂ with longest := word.length }
        if E.max_longest < s₃.longest then (false, { s₃ with failed := true })
        else (true, s₃)
      else (true, s₂)
  else (true, { s with tbl := r.2 })

/-- One iteration of the neighbour loop (`part_002` lines 452-458): skip if
an earlier iteration aborted, skip out-of-bounds neighbours
(`ny >= 0 && ny <= g_max_y && nx >= 0 && nx <= g_max_x`), otherwise recurse
through `go`. -/
def nbStep (E : Env) (go : Nat → Nat → St → Bool × St) (ny nx : Int)
    (acc : Bool × St) : Bool × St :=
  match acc with
  | (false, s) => (false, s)
  | (true, s) =>
    if 0 ≤ ny ∧ ny ≤ (E.board_height : Int) - 1 ∧ 0 ≤ nx ∧ nx ≤ (E.board_width : Int) - 1 then
      go ny.toNat nx.toNat s
    else (true, s)

/-- The full neighbour loop: fold `nbStep` over `g_deltas` in order. -/
def nbAll (E : Env) (go : Nat → Nat → St → Bool × St) (y x : Nat)
    (acc : Bool × St) : Bool × St :=
  g_deltas.foldl (fun a dd => nbStep E go ((y : Int) + dd.1) ((x : Int) + dd.2) a) acc

/-- The part of `find_words` from `used |= mask` on (`part_002` lines
419-460), shared by the letter and the multi-letter branch: `i` is the
matched node, `word` the extended word. -/
def afterMatch (E : Env) (go : Nat → List Nat → Nat → Nat → Nat → St → Bool × St)
    (i : Nat) (word : List Nat) (y x used : Nat) (s : St) : Bool × St :=
  let used' := used ||| maskComputed (y * E.board_width + x)
  let r :=
    if DAWG_EOW E.dawg i ∧ E.min_legal ≤ word.length then acceptWord E word s
    else (true, s)
  match r with
  | (false, s') => (false, s')
  | (true, s') => nbAll E (fun ny nx s'' => go (DAWG_CHILD E.dawg i) word ny nx used' s'') y x (true, s')

/-- `find_words` (`part_002` lines 353-461).  Arguments as in C:
DAWG sibling-chain index `i`, current word, tile coordinates, used-mask,
plus the mutable globals `s` and a fuel bound on the recursion depth
(`0` is unreachable from the entry point, which passes more fuel than the
used-mask allows levels). -/
def find_words (E : Env) : Nat → Nat → List Nat → Nat → Nat → Nat → St → Bool × St
  | 0, _, _, _, _, _, s => (!s.failed, s)
  | fuel + 1, i, word, y, x, used, s =>
    if s.failed then (false, s)
    else
      let mask := maskComputed (y * E.board_width + x)
      if used &&& mask ≠ 0 then (true, s)
      else
        let sought := E.dice (y * E.board_width + x)
        if 65 ≤ sought then
          let i' := scanSibs E.dawg sought E.dsize i
          if i' = 0 then (true, s)
          else afterMatch E (find_words E fuel) i' (word ++ [sought]) y x used s
        else
          let t1 := (g_special_dice.getD (sought - 48) (0, 0)).1
          let t2 := (g_special_dice.getD (sought - 48) (0, 0)).2
          let j := scanSibs E.dawg t1 E.dsize i
          if j = 0 then (true, s)
          else
            let k := scanSibs E.dawg t2 E.dsize (DAWG_CHILD E.dawg j)
            if k = 0 then (true, s)
            else afterMatch E (find_words E fuel) k (word ++ [t1, t2]) y x used s

/-- The board positions in the order of the nested loops of
`find_all_words`. -/
def positions (E : Env) : List (Nat × Nat) :=
  (List.range E.board_height).flatMap fun y => (List.range E.board_width).map fun x => (y, x)

/-- The nested `for y / for x` loop of `find_all_words`: start a search at
every position, abort on the first `false`. -/
def faw_loop (E : Env) (fuel : Nat) : List (Nat × Nat) → St → Bool × St
  | [], s => (true, s)
  | p :: rest, s =>
    match find_words E fuel 1 [] p.1 p.2 0 s with
    | (false, s') => (false, s')
    | (true, s') => faw_loop E fuel rest s'

/-- `find_all_words` (`part_002` lines 478-503): reset the table and the
counters, search from every position, then check the remaining bounds.
Returns the C return value together with the final state of the globals. -/
def find_all_words (E : Env) (t₀ : HashTable) : Bool × St :=
  let s₀ : St := { tbl := reset_hash_table t₀, num_words := 0, longest := 0,
                   score := 0, failed := false }
  match faw_loop E (E.board_width * E.board_height + 2) (positions E) s₀ with
  | (false, s) => (false, s)
  | (true, s) =>
    if s.num_words < E.min_words then (false, s)
    else if s.score < E.min_score then (false, s)
    else if s.longest < E.min_longest then (false, s)
    else if E.max_longest < s.longest then (false, s)
    else (true, s)

/-- The environment `restore_game` (`part_002` lines 738-764) sets up:
all minima 0, all maxima the `INT32_MAX` sentinel, `min_legal` 0. -/
def restoreEnv (score_counts : Nat → Nat) (width height : Nat)
    (dice : Nat → Nat) (dawg : Nat → Nat) (dsize : Nat) : Env :=
  { dawg := dawg, dsize := dsize, board_width := width, board_height := height,
    dice := dice, score_counts := score_counts,
    min_words := 0, max_words := 2147483647,
    min_score := 0, max_score := 2147483647,
    min_longest := 0, max_longest := 2147483647, min_legal := 0 }

/-- `restore_game`: run the unconstrained search on the given exact dice and
return the found-word list (`bws_btree_to_array` = `walk`).  `t₀` is the
state of the process-global hash table at call time (reset by
`find_all_words`). -/
def restore_game (score_counts : Nat → Nat) (width height : Nat)
    (dice : Nat → Nat) (dawg : Nat → Nat) (dsize : Nat) (t₀ : HashTable) :
    List (List Nat) :=
  walk (find_all_words (restoreEnv score_counts width height dice dawg dsize) t₀).2.tbl

/-! ## The legacy variant (`part_001`)

`part_001` is the older build of the same engine: it bounds-checks at the
top of `find_words`, stores found words in a `tsearch` binary tree, decodes
multi-letter tiles with a `switch` that has no `break` statements, loops
over all 9 deltas, has no fail flag (aborts only propagate through return
values), and its `find_all_words` post-checks omit `max_longest`. -/

/-- The cases of the `switch (sought)` in `part_001` lines 228-247, in
source order, each with the pair its body assigns. -/
def switchCases : List (Nat × (Nat × Nat)) :=
  [(48, (95, 95)), (49, (81, 85)), (50, (73, 78)),
   (51, (84, 72)), (52, (69, 82)), (53, (72, 69))]

/-- The `switch` of `part_001` has no `break`s, so control enters at the
matching case and runs every later assignment as well; the pair that
survives is the last one from the entry point on.  `none` models the case
of no matching label, which leaves `t1`/`t2` uninitialised. -/
def switchExpansion (sought : Nat) : Option (Nat × Nat) :=
  ((switchCases.dropWhile (fun p => p.1 ≠ sought)).map Prod.snd).getLast?

/-- `part_001`'s per-board mutable state: the `tsearch` tree of legal words
(modelled by its set-of-words contract as a list used as a set) and the
counters.  There is no fail flag in this variant. -/
structure St001 where
  legal : List (List Nat)
  num_words : Nat
  longest : Nat
  score : Nat

inductive AddResult
  | added
  | dup
  | fail
deriving DecidableEq

/-- `add_word` (`part_001` lines 141-167): `tsearch`-insert (the tree is
modelled by its contract: membership test, then insertion), then bump the
counters, returning `ADD_FAIL` when an upper bound is exceeded.  Note there
is no `max_longest` check here. -/
def add_word (E : Env) (word : List Nat) (s : St001) : AddResult × St001 :=
  if word ∈ s.legal then (.dup, s)
  else
    let s₁ : St001 := { s with legal := word :: s.legal, num_words := s.num_words + 1 }
    if E.max_words < s₁.num_words then (.fail, s₁)
    else
      let s₂ : St001 := { s₁ with score := s₁.score + E.score_counts word.length }
      if E.max_score < s₂.score then (.fail, s₂)
      else if s₂.longest < word.length then (.added, { s₂ with longest := word.length })
      else (.added, s₂)

/-- The 9 deltas of `part_001`'s nested `for di / for dj` loop (lines
275-287), including the centre: the used-mask test rejects the centre. -/
def g_deltas9 : List (Int × Int) :=
  [(-1, -1), (-1, 0), (-1, 1), (0, -1), (0, 0), (0, 1), (1, -1), (1, 0), (1, 1)]

/-- One neighbour iteration of `part_001`: no bounds guard here (the callee
checks), abort propagates. -/
def nbStep001 (go : Int → Int → St001 → Bool × St001) (ny nx : Int)
    (acc : Bool × St001) : Bool × St001 :=
  match acc with
  | (false, s) => (false, s)
  | (true, s) => go ny nx s

/-- The tail of `part_001`'s `find_words` from `used |= mask` on. -/
def afterMatch001 (E : Env) (go : Nat → List Nat → Int → Int → Nat → St001 → Bool × St001)
    (i : Nat) (word : List Nat) (y x : Int) (used : Nat) (s : St001) : Bool × St001 :=
  let used' := used ||| maskComputed (y * E.board_width + x).toNat
  let r :=
    if DAWG_EOW E.dawg i ∧ E.min_legal ≤ word.length then
      match add_word E word s with
      | (.fail, s') => (false, s')
      | (_, s') => (true, s')
    else (true, s)
  match r with
  | (false, s') => (false, s')
  | (true, s') =>
    g_deltas9.foldl
      (fun a dd => nbStep001 (fun ny nx s'' => go (DAWG_CHILD E.dawg i) word ny nx used' s'') (y + dd.1) (x + dd.2) a)
      (true, s')

/-- `find_words` of `part_001` (lines 195-289): bounds check at entry,
`switch`-decoded multi-letter tiles, `add_word` acceptance, 9-delta
recursion.  Coordinates are `Int` because callers pass out-of-bounds
neighbours. -/
def find_words001 (E : Env) : Nat → Nat → List Nat → Int → Int → Nat → St001 → Bool × St001
  | 0, _, _, _, _, _, s => (true, s)
  | fuel + 1, i, word, y, x, used, s =>
    if y < 0 ∨ (E.board_height : Int) ≤ y ∨ x < 0 ∨ (E.board_width : Int) ≤ x then (true, s)
    else
      let mask := maskComputed (y * E.board_width + x).toNat
      if used &&& mask ≠ 0 then (true, s)
      else
        let sought := E.dice (y * E.board_width + x).toNat
        if 65 ≤ sought then
          let i' := scanSibs E.dawg sought E.dsize i
          if i' = 0 then (true, s)
          else afterMatch001 E (find_words001 E fuel) i' (word ++ [sought]) y x used s
        else
          let t1 := ((switchExpansion sought).getD (0, 0)).1
          let t2 := ((switchExpansion sought).getD (0, 0)).2
          let j := scanSibs E.dawg t1 E.dsize i
          if j = 0 then (true, s)
          else
            let k := scanSibs E.dawg t2 E.dsize (DAWG_CHILD E.dawg j)
            if k = 0 then (true, s)
            else afterMatch001 E (find_words001 E fuel) k (word ++ [t1, t2]) y x used s

/-- The position loop of `part_001`'s `find_all_words`. -/
def faw_loop001 (E : Env) (fuel : Nat) : List (Nat × Nat) → St001 → Bool × St001
  | [], s => (true, s)
  | p :: rest, s =>
    match find_words001 E fuel 1 [] (p.1 : Int) (p.2 : Int) 0 s with
    | (false, s') => (false, s')
    | (true, s') => faw_loop001 E fuel rest s'

/-- `find_all_words` of `part_001` (lines 297-315): note the post-checks
test only the three minima — there is no `longest > max_longest` check in
this variant. -/
def find_all_words001 (E : Env) : Bool × St001 :=
  let s₀ : St001 := { legal := [], num_words := 0, longest := 0, score := 0 }
  match faw_loop001 E (E.board_width * E.board_height + 2) (positions E) s₀ with
  | (false, s) => (false, s)
  | (true, s) =>
    if s.num_words < E.min_words then (false, s)
    else if s.score < E.min_score then (false, s)
    else if s.longest < E.min_longest then (false, s)
    else (true, s)

/-! ## The outer rejection-sampling loop (`part_002` `fill_board`/`get_words`,
`part_001` `fill_board`/`get_words`)

The loop body (roll the dice from the injected random stream, optionally
prefilter, evaluate) is abstracted as `accept t`: whether try number `t`
(1-based) produces an accepted board.  The claims about the loop concern
only its return discipline. -/

/-- `part_002` `fill_board` (lines 616-631): `while (count++ < max_tries)`,
returning the 1-based try count on acceptance and `-1` on exhaustion.
`remaining` is `max_tries - count`. -/
def fill_go (accept : Nat → Bool) (count : Nat) : Nat → Int
  | 0 => -1
  | remaining + 1 =>
    if accept (count + 1) then ((count + 1 : Nat) : Int)
    else fill_go accept (count + 1) remaining

def fill_board (accept : Nat → Bool) (max_tries : Nat) : Int :=
  fill_go accept 0 max_tries

/-- `get_words` outer-loop discipline (`part_002` lines 710-718): a `-1`
from `fill_board` makes the call return `NULL` (no words, no try count);
otherwise the try count (and the word list) are produced. -/
def get_words_tries (accept : Nat → Bool) (max_tries : Nat) : Option Nat :=
  let tries := fill_board accept max_tries
  if tries = -1 then none else some tries.toNat

/-- `part_001` `fill_board` (lines 337-345): same loop, but after an
exhausted loop the final `count++` has made `count = max_tries + 1` and
that value is returned — there is no failure signal. -/
def fill_go_001 (accept : Nat → Bool) (count : Nat) : Nat → Nat
  | 0 => count + 1
  | remaining + 1 =>
    if accept (count + 1) then count + 1
    else fill_go_001 accept (count + 1) remaining

def fill_board_001 (accept : Nat → Bool) (max_tries : Nat) : Nat :=
  fill_go_001 accept 0 max_tries

/-- `part_001` `get_words` (lines 378-418) never tests the result of
`fill_board`: it always returns the word array and the try count. -/
def get_words_tries_001 (accept : Nat → Bool) (max_tries : Nat) : Option Nat :=
  some (fill_board_001 accept max_tries)

/-! ## The prefilter (`part_002` `board_looks_promising`, lines 519-601) -/

/-- `board_looks_promising`, as a function of the dice (a list of
`width*height` tile codes) and of the two constraint fields it reads
(`g_min_words`, `g_min_longest`).  The three counters are accumulated in a
single pass in C; counting each predicate separately is the same tally. -/
def board_looks_promising (dice : List Nat) (min_words min_longest : Nat) : Bool :=
  let board_size := dice.length
  let vowel_count := dice.countP
    (fun c => c == 65 || c == 69 || c == 73 || c == 79 || c == 85 || c == 50 || c == 53)
  let common_letters := dice.countP
    (fun c => c == 83 || c == 82 || c == 84 || c == 78 || c == 76)
  let special_chars := dice.countP (fun c => 49 ≤ c && c ≤ 53)
  let vowel_percentage := vowel_count * 100 / board_size
  if vowel_percentage < 15 || 65 < vowel_percentage then false
  else if common_letters < 1 then false
  else if board_size / 2 < special_chars then false
  else if 100 < min_words && (vowel_percentage < 20 || 55 < vowel_percentage) then false
  else if 100 < min_words && common_letters < 2 then false
  else if (200 < min_words || 10 < min_longest) && (vowel_count < 3 || common_letters < 3) then false
  else if (200 < min_words || 10 < min_longest)
       && !(dice.any (fun c => c == 83 || c == 68 || c == 71)) then false
  else true

/-! ## Dictionary load (`part_002` `read_dawg`, lines 180-201)

The file is modelled as `Option (List Nat)` of its bytes (`none` = the
file cannot be opened).  Each `FATAL2` call prints and exits; they are
modelled as error results.  After the 4-byte header test, `fread(f2, size,
1, f)` reads `size = ftell(END)` bytes from the start, which by
construction always succeeds, and `dawg = f2 + 1` skips the header word,
so `dawg[0]` is the file's first node word — the sentinel. -/

inductive ReadDawgError
  | cannotOpen
  | cannotGetSize
deriving DecidableEq

/-- The complete 32-bit little-endian words of a byte sequence (a trailing
partial word stays uninitialised in C and is never a node). -/
def leWords : List Nat → List Nat
  | b0 :: b1 :: b2 :: b3 :: rest =>
    (b0 + 256 * b1 + 65536 * b2 + 16777216 * b3) :: leWords rest
  | _ => []

def read_dawg (file : Option (List Nat)) : Except ReadDawgError (List Nat) :=
  match file with
  | none => .error .cannotOpen
  | some bytes =>
    if bytes.length < 4 then .error .cannotGetSize
    else .ok ((leWords bytes).drop 1)

/-! ## Sequences of inserts (for the found-word-set claims) -/

/-- Run a sequence of `insert` calls, collecting the returned Booleans. -/
def runInserts (t : HashTable) : List (List Nat) → HashTable × List Bool
  | [] => (t, [])
  | w :: ws =>
    let r := insert t w
    let rest := runInserts r.2 ws
    (rest.1, r.1 :: rest.2)

/-- The distinct words of a sequence in order of first occurrence,
accumulated onto `acc`. -/
def firstOccsAux (acc : List (List Nat)) : List (List Nat) → List (List Nat)
  | [] => acc
  | w :: ws => firstOccsAux (if w ∈ acc then acc else acc ++ [w]) ws

def firstOccs (ws : List (List Nat)) : List (List Nat) :=
  firstOccsAux [] ws

/-! ## Invariants used by the proofs -/

/-- The hash-table invariant maintained by `insert` from the empty table:
`used_indices` lists exactly the occupied slots, without repetition, and
every stored word's probe path from its hash down to its slot passes only
occupied slots that hold other words. -/
structure TableInv (t : HashTable) : Prop where
  nodup : t.used_indices.Nodup
  mem_lt : ∀ j ∈ t.used_indices, j < HASH_SIZE
  mem_ne : ∀ j ∈ t.used_indices, t.slots j ≠ []
  occ_mem : ∀ j, j < HASH_SIZE → t.slots j ≠ [] → j ∈ t.used_indices
  hi_empty : ∀ j, HASH_SIZE ≤ j → t.slots j = []
  chain : ∀ j, j < HASH_SIZE → t.slots j ≠ [] →
    ∀ l, l < (j + HASH_SIZE - hash_word (t.slots j)) % HASH_SIZE →
      t.slots ((hash_word (t.slots j) + l) % HASH_SIZE) ≠ [] ∧
      t.slots ((hash_word (t.slots j) + l) % HASH_SIZE) ≠ t.slots j

/-- A word the search may legitimately report: in the dictionary, spellable
on the board, and long enough. -/
def GoodWord (E : Env) (w : List Nat) : Prop :=
  dawgMem E.dawg E.dsize w = true ∧ Spellable E w ∧ E.min_legal ≤ w.length

/-- The search-state invariant: the table invariant, `g_num_words` equal to
the number of stored words, and every stored word legitimate. -/
structure SInv (E : Env) (s : St) : Prop where
  tinv : TableInv s.tbl
  numeq : s.num_words = s.tbl.used_indices.length
  sound : ∀ w ∈ walk s.tbl, GoodWord E w

/-- The relation between `word` and the DAWG index `i` at every call of
`find_words`: at the root `i = 1`, and otherwise `word` traces to a live
node whose child chain is `i`. -/
def ChainInv (E : Env) (word : List Nat) (i : Nat) : Prop :=
  (word = [] ∧ i = 1) ∨
  (word ≠ [] ∧ traceFrom E.dawg E.dsize 1 word ≠ 0 ∧
    i = DAWG_CHILD E.dawg (traceFrom E.dawg E.dsize 1 word))

/-- What holds of the arguments at every call of `find_words`: `path` is
the (possibly empty) simple in-bounds path already consumed, it spells
`word`, its masks make up `used`, its last tile (if any) is adjacent to the
tile `(y, x)` now being visited, which is on the board, and `i` is the
DAWG chain for continuations of `word`. -/
def PathPre (E : Env) (path : List (Nat × Nat)) (word : List Nat) (i used y x : Nat) : Prop :=
  path.Nodup ∧ (∀ p ∈ path, inBounds E p) ∧ path.Chain' adjacent ∧
  (∀ p, path.getLast? = some p → adjacent p (y, x)) ∧
  spell E path = word ∧ used = usedOf E path ∧ ChainInv E word i ∧ inBounds E (y, x)

/-! ## Concrete instances used by counterexamples and witnesses -/

/-- A straight-line DAWG accepting exactly the word `ABCDEFGHIJKL`. -/
def dawgCE : Nat → Nat := fun i =>
  if 1 ≤ i ∧ i ≤ 11 then (i + 1) * 1024 + 256 + (64 + i)
  else if i = 12 then 256 + 512 + 76 else 0

/-- A 3×11 board: `A`..`J` along the top row, `K` at `(1,10)`, `L` at
`(2,10)`, `Z` elsewhere.  The only path spelling `ABCDEFGHIJKL` runs from
position 0 through position 21 to position 32 — and bit 32 of the
(32-bit-computed) mask collides with bit 0. -/
def diceCE : Nat → Nat := fun p =>
  if p < 10 then 65 + p else if p = 21 then 75 else if p = 32 then 76 else 90

def envCE : Env := restoreEnv (fun _ => 1) 11 3 diceCE dawgCE 13

def wordCE : List Nat := [65, 66, 67, 68, 69, 70, 71, 72, 73, 74, 75, 76]

def pathCE : List (Nat × Nat) :=
  [(0, 0), (0, 1), (0, 2), (0, 3), (0, 4), (0, 5), (0, 6), (0, 7), (0, 8), (0, 9), (1, 10), (2, 10)]

/-- A straight-line DAWG accepting exactly `CAT`. -/
def dawgCAT : Nat → Nat := fun i =>
  if i = 1 then 2 * 1024 + 256 + 67
  else if i = 2 then 3 * 1024 + 256 + 65
  else if i = 3 then 256 + 512 + 84 else 0

/-- A 3×1 board spelling `CAT`, with `max_longest = 2`: the accepted word
`CAT` has length 3 > 2, so a correct evaluator must reject this board. -/
def envCAT : Env :=
  { dawg := dawgCAT, dsize := 4, board_width := 3, board_height := 1,
    dice := fun p => if p = 0 then 67 else if p = 1 then 65 else 84,
    score_counts := fun _ => 0,
    min_words := 0, max_words := 2147483647,
    min_score := 0, max_score := 2147483647,
    min_longest := 0, max_longest := 2, min_legal := 3 }

/-- A 2×1 board spelling `AT` against a DAWG accepting exactly `AT`;
used by witnesses. -/
def dawgAT : Nat → Nat := fun i =>
  if i = 1 then 2 * 1024 + 256 + 65
  else if i = 2 then 256 + 512 + 84 else 0

def envAT : Env := restoreEnv (fun _ => 1) 2 1 (fun p => if p = 0 then 65 else 84) dawgAT 3

/-- `envAT` with `max_words = 0`: accepting the first word trips the fail
flag; used by witnesses that need a run that fails. -/
def envAT0 : Env :=
  { envAT with max_words := 0, min_legal := 1 }

/-! # Theorems

## Hash-table lemmas -/

theorem HASH_SIZE_pos : 0 < HASH_SIZE := by norm_num [HASH_SIZE]

theorem hash_word_lt (w : List Nat) : hash_word w < HASH_SIZE :=
  Nat.mod_lt _ HASH_SIZE_pos

/-- Characterisation of a successful probe: the hit is `m < fuel` steps
from the start, every slot strictly before it on the probe path is occupied
by a different word, and the hit is an empty slot (novel) or a slot holding
the word (duplicate). -/
theorem probe_eq_some (slots : Nat → List Nat) (w : List Nat) :
    ∀ fuel start b idx, start < HASH_SIZE →
      probe slots w fuel start = some (b, idx) →
      ∃ m, m < fuel ∧ idx = (start + m) % HASH_SIZE ∧
        (∀ l, l < m → slots ((start + l) % HASH_SIZE) ≠ [] ∧
          slots ((start + l) % HASH_SIZE) ≠ w) ∧
        ((b = true ∧ slots idx = []) ∨ (b = false ∧ slots idx = w)) := by
  intro fuel
  induction fuel with
  | zero => intro start b idx _ h; simp [probe] at h
  | succ fuel ih =>
    intro start b idx hs h
    have hstart : (start + 0) % HASH_SIZE = start := by
      simp only [HASH_SIZE] at hs ⊢; omega
    unfold probe at h
    by_cases h1 : slots start = []
    · simp only [h1, if_pos rfl, if_true, Option.some.injEq, Prod.mk.injEq] at h
      refine ⟨0, by omega, by rw [hstart, ← h.2], fun l hl => absurd hl (by omega), ?_⟩
      exact Or.inl ⟨h.1.symm, by rw [← h.2]; exact h1⟩
    · rw [if_neg h1] at h
      by_cases h2 : slots start = w
      · rw [if_pos h2] at h
        simp only [Option.some.injEq, Prod.mk.injEq] at h
        refine ⟨0, by omega, by rw [hstart, ← h.2], fun l hl => absurd hl (by omega), ?_⟩
        exact Or.inr ⟨h.1.symm, by rw [← h.2]; exact h2⟩
      · rw [if_neg h2] at h
        have hs' : (start + 1) % HASH_SIZE < HASH_SIZE := Nat.mod_lt _ HASH_SIZE_pos
        obtain ⟨m, hm, hidx, hpath, hhit⟩ := ih _ b idx hs' h
        refine ⟨m + 1, by omega, ?_, ?_, hhit⟩
        · rw [hidx]; simp only [HASH_SIZE] at *; omega
        · intro l hl
          match l, hl with
          | 0, _ => rw [hstart]; exact ⟨h1, h2⟩
          | l + 1, hl =>
            have := hpath l (by omega)
            have heq : ((start + 1) % HASH_SIZE + l) % HASH_SIZE
                = (start + (l + 1)) % HASH_SIZE := by
              simp only [HASH_SIZE]; omega
            rw [heq] at this
            exact this

/-- A probe with an empty-or-matching slot within range always succeeds. -/
theorem probe_isSome (slots : Nat → List Nat) (w : List Nat) :
    ∀ fuel start, start < HASH_SIZE →
      (∃ m, m < fuel ∧ (slots ((start + m) % HASH_SIZE) = [] ∨
        slots ((start + m) % HASH_SIZE) = w)) →
      (probe slots w fuel start).isSome := by
  intro fuel
  induction fuel with
  | zero => intro start _ ⟨m, hm, _⟩; omega
  | succ fuel ih =>
    intro start hs ⟨m, hm, hhit⟩
    unfold probe
    by_cases h1 : slots start = []
    · simp [h1]
    · rw [if_neg h1]
      by_cases h2 : slots start = w
      · simp [h2]
      · rw [if_neg h2]
        have hs' : (start + 1) % HASH_SIZE < HASH_SIZE := Nat.mod_lt _ HASH_SIZE_pos
        apply ih _ hs'
        match m, hm, hhit with
        | 0, _, hhit =>
          have : (start + 0) % HASH_SIZE = start := by
            simp only [HASH_SIZE] at hs ⊢; omega
          rw [this] at hhit
          cases hhit with
          | inl h => exact absurd h h1
          | inr h => exact absurd h h2
        | m + 1, hm, hhit =>
          refine ⟨m, by omega, ?_⟩
          have heq : ((start + 1) % HASH_SIZE + m) % HASH_SIZE
              = (start + (m + 1)) % HASH_SIZE := by
            simp only [HASH_SIZE]; omega
          rw [heq]
          exact hhit

theorem walk_mem {t : HashTable} {w : List Nat} :
    w ∈ walk t ↔ ∃ j ∈ t.used_indices, t.slots j = w := by
  simp [walk, List.mem_map]

/-- Under the invariant, a non-empty word is in the walk list iff some slot
holds it. -/
theorem stored_iff_walk {t : HashTable} (hInv : TableInv t) {w : List Nat} (hw : w ≠ []) :
    (∃ j, j < HASH_SIZE ∧ t.slots j = w) ↔ w ∈ walk t := by
  rw [walk_mem]
  constructor
  · rintro ⟨j, hj, hjw⟩
    exact ⟨j, hInv.occ_mem j hj (by rw [hjw]; exact hw), hjw⟩
  · rintro ⟨j, hj, hjw⟩
    exact ⟨j, hInv.mem_lt j hj, hjw⟩

/-- Distinct slots never hold the same (non-empty) word: both chain
invariants would contradict each other. -/
theorem slots_inj {t : HashTable} (hInv : TableInv t) :
    ∀ j k, j < HASH_SIZE → k < HASH_SIZE → t.slots j ≠ [] →
      t.slots j = t.slots k → j = k := by
  have main : ∀ j k, j < HASH_SIZE → k < HASH_SIZE → t.slots j ≠ [] →
      t.slots j = t.slots k →
      (j + HASH_SIZE - hash_word (t.slots j)) % HASH_SIZE ≤
        (k + HASH_SIZE - hash_word (t.slots k)) % HASH_SIZE → j = k := by
    intro j k hj hk hne heq hle
    set h := hash_word (t.slots j) with hh
    have hh' : hash_word (t.slots k) = h := by rw [heq] at hh; exact hh.symm
    rw [hh'] at hle
    have hhlt : h < HASH_SIZE := hash_word_lt _
    rcases Nat.lt_or_ge ((j + HASH_SIZE - h) % HASH_SIZE)
        ((k + HASH_SIZE - h) % HASH_SIZE) with hlt | hge
    · -- j's distance is strictly smaller: slot j lies on k's chain
      have hkne : t.slots k ≠ [] := by rw [← heq]; exact hne
      have := (hInv.chain k hk hkne ((j + HASH_SIZE - h) % HASH_SIZE)
        (by rw [hh']; exact hlt)).2
      rw [hh'] at this
      have hjeq : (h + (j + HASH_SIZE - h) % HASH_SIZE) % HASH_SIZE = j := by
        simp only [HASH_SIZE] at *; omega
      rw [hjeq, ← heq] at this
      exact absurd rfl this
    · have heqd : (j + HASH_SIZE - h) % HASH_SIZE = (k + HASH_SIZE - h) % HASH_SIZE := by
        omega
      simp only [HASH_SIZE] at *; omega
  intro j k hj hk hne heq
  rcases Nat.le_total ((j + HASH_SIZE - hash_word (t.slots j)) % HASH_SIZE)
      ((k + HASH_SIZE - hash_word (t.slots k)) % HASH_SIZE) with hle | hle
  · exact main j k hj hk hne heq hle
  · have hkne : t.slots k ≠ [] := by rw [← heq]; exact hne
    exact (main k j hk hj hkne heq.symm hle).symm

/-- Walk lists of invariant tables have no duplicates. -/
theorem walk_nodup {t : HashTable} (hInv : TableInv t) : (walk t).Nodup := by
  apply List.Nodup.map_on _ hInv.nodup
  intro j hj k hk heq
  exact slots_inj hInv j k (hInv.mem_lt j hj) (hInv.mem_lt k hk) (hInv.mem_ne j hj) heq

/-- If fewer than `HASH_SIZE` slots are used, some slot on any length-
`HASH_SIZE` probe window is empty. -/
theorem exists_empty_slot {t : HashTable} (hInv : TableInv t)
    (hcap : t.used_indices.length < HASH_SIZE) (start : Nat) (hs : start < HASH_SIZE) :
    ∃ m, m < HASH_SIZE ∧ t.slots ((start + m) % HASH_SIZE) = [] := by
  by_contra hall
  push_neg at hall
  have hocc : ∀ j, j < HASH_SIZE → t.slots j ≠ [] := by
    intro j hj
    have hm : (j + HASH_SIZE - start) % HASH_SIZE < HASH_SIZE := Nat.mod_lt _ HASH_SIZE_pos
    have := hall _ hm
    have heq : (start + (j + HASH_SIZE - start) % HASH_SIZE) % HASH_SIZE = j := by
      simp only [HASH_SIZE] at *; omega
    rwa [heq] at this
  have hsub : (List.range HASH_SIZE) ⊆ t.used_indices := by
    intro j hj
    rw [List.mem_range] at hj
    exact hInv.occ_mem j hj (hocc j hj)
  have hcard : HASH_SIZE ≤ t.used_indices.length := by
    have h1 : (List.range HASH_SIZE).toFinset ⊆ t.used_indices.toFinset := by
      intro a ha
      rw [List.mem_toFinset] at ha ⊢
      exact hsub ha
    have h2 := Finset.card_le_card h1
    rw [List.toFinset_card_of_nodup (List.nodup_range _)] at h2
    have h3 := t.used_indices.toFinset_card_le
    simp only [List.length_range] at h2
    omega
  omega

/-- Everything `insert` guarantees without any capacity assumption: the
invariant is preserved, the walk list is extended by the word exactly when
`true` is returned, `true` is only returned for genuinely new words, and a
`false` return leaves the table untouched. -/
theorem insert_spec (t : HashTable) (w : List Nat) (hInv : TableInv t) (hw : w ≠ []) :
    TableInv (insert t w).2 ∧
    walk (insert t w).2 = walk t ++ (if (insert t w).1 then [w] else []) ∧
    ((insert t w).1 = true → w ∉ walk t) ∧
    (insert t w).2.used_indices.length
      = t.used_indices.length + (if (insert t w).1 then 1 else 0) ∧
    ((insert t w).1 = false → (insert t w).2 = t) := by
  rcases hp : probe t.slots w HASH_SIZE (hash_word w) with _ | ⟨b', idx⟩
  · simp [insert, hp]
    exact hInv
  · obtain ⟨m, hm, hidx, hpath, hhit⟩ :=
      probe_eq_some t.slots w HASH_SIZE (hash_word w) b' idx (hash_word_lt w) hp
    have hhlt : hash_word w < HASH_SIZE := hash_word_lt w
    have hidxlt : idx < HASH_SIZE := by rw [hidx]; exact Nat.mod_lt _ HASH_SIZE_pos
    cases b' with
    | false =>
      simp only [insert, hp]
      refine ⟨hInv, by simp, by simp, by simp, by simp⟩
    | true =>
      have hempty : t.slots idx = [] := by
        rcases hhit with ⟨_, h⟩ | ⟨h, _⟩
        · exact h
        · exact absurd h (by simp)
      have hnotmem : idx ∉ t.used_indices := fun hmem =>
        hInv.mem_ne idx hmem hempty
      have hnotwalk : w ∉ walk t := by
        intro hwmem
        obtain ⟨k, hk, hkw⟩ := (stored_iff_walk hInv hw).2 hwmem
        have hhk : hash_word (t.slots k) = hash_word w := by rw [hkw]
        set h := hash_word w with hhdef
        have hkid : (h + (k + HASH_SIZE - h) % HASH_SIZE) % HASH_SIZE = k := by
          simp only [HASH_SIZE] at *; omega
        have hkne : t.slots k ≠ [] := by rw [hkw]; exact hw
        rcases Nat.lt_trichotomy ((k + HASH_SIZE - h) % HASH_SIZE) m with hlt | heq | hgt
        · have := (hpath _ hlt).2
          rw [hkid] at this
          exact this hkw
        · have : k = idx := by rw [← hkid, heq, ← hidx]
          rw [this, hempty] at hkw
          exact hw hkw.symm
        · have := (hInv.chain k hk hkne m (by rw [hhk]; exact hgt)).1
          simp only [hhk, ← hidx] at this
          exact this hempty
      simp only [insert, hp]
      constructor
      · -- the invariant for the extended table
        constructor
        · rw [List.nodup_append]
          exact ⟨hInv.nodup, List.nodup_singleton idx,
            fun a ha hb => by rw [List.mem_singleton] at hb; exact hnotmem (hb ▸ ha)⟩
        · intro j hj
          rcases List.mem_append.1 hj with hj | hj
          · exact hInv.mem_lt j hj
          · rw [List.mem_singleton] at hj; exact hj ▸ hidxlt
        · intro j hj
          rcases List.mem_append.1 hj with hj | hj
          · have : j ≠ idx := fun he => hnotmem (he ▸ hj)
            simpa [this] using hInv.mem_ne j hj
          · rw [List.mem_singleton] at hj
            simpa [hj] using hw
        · intro j hj hne
          by_cases hje : j = idx
          · exact List.mem_append.2 (Or.inr (by rw [List.mem_singleton]; exact hje))
          · simp only [if_neg hje] at hne
            exact List.mem_append.2 (Or.inl (hInv.occ_mem j hj hne))
        · intro j hj
          have hje : j ≠ idx := by omega
          simpa [hje] using hInv.hi_empty j hj
        · -- the chain condition
          intro j hj hne l hl
          dsimp only at hne hl ⊢
          by_cases hje : j = idx
          · have hsj : (if j = idx then w else t.slots j) = w := if_pos hje
            rw [hsj] at hl ⊢
            have hdist : (j + HASH_SIZE - hash_word w) % HASH_SIZE = m := by
              rw [hje, hidx]; simp only [HASH_SIZE] at *; omega
            rw [hdist] at hl
            have hil : (hash_word w + l) % HASH_SIZE ≠ idx := by
              rw [hidx]; simp only [HASH_SIZE] at *; omega
            rw [if_neg hil]
            exact hpath l hl
          · have hsj : (if j = idx then w else t.slots j) = t.slots j := if_neg hje
            rw [hsj] at hne hl ⊢
            have hjl : (hash_word (t.slots j) + l) % HASH_SIZE ≠ idx := by
              intro heqi
              have := (hInv.chain j hj hne l hl).1
              rw [heqi, hempty] at this
              exact this rfl
            rw [if_neg hjl]
            exact hInv.chain j hj hne l hl
      refine ⟨?_, by simp [hnotwalk], by simp, fun h => by simp at h⟩
      · -- walk extends by [w]
        show walk ⟨fun j => if j = idx then w else t.slots j, t.used_indices ++ [idx]⟩
          = walk t ++ if true = true then [w] else []
        simp only [if_pos rfl, walk, List.map_append, List.map_singleton]
        congr 1
        apply List.map_congr_left
        intro j hj
        have : j ≠ idx := fun he => hnotmem (he ▸ hj)
        simp [this]

/-- With free capacity, `insert` accepts every word not already stored. -/
theorem insert_true_of_not_mem (t : HashTable) (w : List Nat) (hInv : TableInv t)
    (hcap : t.used_indices.length < HASH_SIZE) (hw : w ≠ []) (hnm : w ∉ walk t) :
    (insert t w).1 = true := by
  have hsome : (probe t.slots w HASH_SIZE (hash_word w)).isSome := by
    apply probe_isSome _ _ _ _ (hash_word_lt w)
    obtain ⟨m, hm, he⟩ := exists_empty_slot hInv hcap (hash_word w) (hash_word_lt w)
    exact ⟨m, hm, Or.inl he⟩
  rcases hp : probe t.slots w HASH_SIZE (hash_word w) with _ | ⟨b', idx⟩
  · rw [hp] at hsome; simp at hsome
  · obtain ⟨m, hm, hidx, hpath, hhit⟩ :=
      probe_eq_some t.slots w HASH_SIZE (hash_word w) b' idx (hash_word_lt w) hp
    cases b' with
    | true => simp [insert, hp]
    | false =>
      exfalso
      have hidxlt : idx < HASH_SIZE := by rw [hidx]; exact Nat.mod_lt _ HASH_SIZE_pos
      have hstored : t.slots idx = w := by
        rcases hhit with ⟨h, _⟩ | ⟨_, h⟩
        · exact absurd h (by simp)
        · exact h
      exact hnm ((stored_iff_walk hInv hw).1 ⟨idx, hidxlt, hstored⟩)

theorem tableInv_empty : TableInv emptyHT := by
  constructor <;> simp [emptyHT, walk]

theorem reset_emptyHT : reset_hash_table emptyHT = emptyHT := by
  simp only [reset_hash_table, emptyHT]
  congr 1

theorem walk_emptyHT : walk emptyHT = [] := rfl

theorem walk_length (t : HashTable) : (walk t).length = t.used_indices.length := by
  simp [walk]

theorem firstOccsAux_length_mono (ws : List (List Nat)) :
    ∀ acc, acc.length ≤ (firstOccsAux acc ws).length := by
  induction ws with
  | nil => intro acc; simp [firstOccsAux]
  | cons w ws ih =>
    intro acc
    show acc.length ≤ (firstOccsAux (if w ∈ acc then acc else acc ++ [w]) ws).length
    by_cases hw : w ∈ acc
    · rw [if_pos hw]; exact ih acc
    · rw [if_neg hw]
      have := ih (acc ++ [w])
      simp only [List.length_append, List.length_singleton] at this
      omega

theorem firstOccsAux_nodup (ws : List (List Nat)) :
    ∀ acc, acc.Nodup → (firstOccsAux acc ws).Nodup := by
  induction ws with
  | nil => intro acc h; exact h
  | cons w ws ih =>
    intro acc h
    show (firstOccsAux (if w ∈ acc then acc else acc ++ [w]) ws).Nodup
    by_cases hw : w ∈ acc
    · rw [if_pos hw]; exact ih acc h
    · rw [if_neg hw]
      refine ih _ ?_
      rw [List.nodup_append]
      exact ⟨h, List.nodup_singleton w,
        fun a ha hb => by rw [List.mem_singleton] at hb; exact hw (hb ▸ ha)⟩

/-- Running a sequence of inserts on an invariant table with enough
capacity: the final walk list is the accumulated first-occurrence list and
the number of `true` returns is the number of new words. -/
theorem runInserts_spec (ws : List (List Nat)) :
    ∀ t, TableInv t → (∀ w ∈ ws, w ≠ []) →
      (firstOccsAux (walk t) ws).length < HASH_SIZE →
      walk (runInserts t ws).1 = firstOccsAux (walk t) ws ∧
      TableInv (runInserts t ws).1 ∧
      (runInserts t ws).2.count true
        = (firstOccsAux (walk t) ws).length - (walk t).length := by
  induction ws with
  | nil => intro t hInv _ _; exact ⟨rfl, hInv, by simp [runInserts, firstOccsAux]⟩
  | cons w ws ih =>
    intro t hInv hne hcap
    have hwne : w ≠ [] := hne w (by simp)
    have hne' : ∀ v ∈ ws, v ≠ [] := fun v hv => hne v (by simp [hv])
    have hauxl := firstOccsAux_length_mono (w :: ws) (walk t)
    have hcapt : t.used_indices.length < HASH_SIZE := by
      rw [← walk_length]
      calc (walk t).length ≤ (firstOccsAux (walk t) (w :: ws)).length := hauxl
        _ < HASH_SIZE := hcap
    obtain ⟨hInv', hwalk', htrue', hlen', hfalse'⟩ := insert_spec t w hInv hwne
    have haux : firstOccsAux (walk t) (w :: ws)
        = firstOccsAux (if w ∈ walk t then walk t else walk t ++ [w]) ws := rfl
    by_cases hmem : w ∈ walk t
    · have hb : (insert t w).1 = false := by
        cases hb : (insert t w).1 with
        | false => rfl
        | true => exact absurd hmem (htrue' hb)
      have hteq : (insert t w).2 = t := hfalse' hb
      have : runInserts t (w :: ws)
          = ((runInserts t ws).1, (insert t w).1 :: (runInserts t ws).2) := by
        show ((runInserts (insert t w).2 ws).1,
              (insert t w).1 :: (runInserts (insert t w).2 ws).2)
          = ((runInserts t ws).1, (insert t w).1 :: (runInserts t ws).2)
        rw [hteq]
      rw [this, haux, if_pos hmem]
      obtain ⟨ha, hb', hc⟩ := ih t hInv hne' (by rwa [haux, if_pos hmem] at hcap)
      refine ⟨ha, hb', ?_⟩
      simp only [hb, List.count_cons]
      simp [hc]
    · have hb : (insert t w).1 = true :=
        insert_true_of_not_mem t w hInv hcapt hwne hmem
      have hwalk2 : walk (insert t w).2 = walk t ++ [w] := by
        rw [hwalk', hb]; simp
      have : runInserts t (w :: ws)
          = ((runInserts (insert t w).2 ws).1,
             (insert t w).1 :: (runInserts (insert t w).2 ws).2) := rfl
      rw [this, haux, if_neg hmem]
      have hcap2 : (firstOccsAux (walk (insert t w).2) ws).length < HASH_SIZE := by
        rw [hwalk2]
        rwa [haux, if_neg hmem] at hcap
      obtain ⟨ha, hb', hc⟩ := ih (insert t w).2 hInv' hne' hcap2
      rw [hwalk2] at ha hc
      refine ⟨ha, hb', ?_⟩
      rw [hb]
      have hcnt : ((true : Bool) :: (runInserts (insert t w).2 ws).2).count true
          = (runInserts (insert t w).2 ws).2.count true + 1 := by simp
      rw [hcnt]
      have hmono := firstOccsAux_length_mono ws (walk t ++ [w])
      simp only [List.length_append, List.length_singleton] at hmono hc ⊢
      omega

/-! ## Claim C10 -/

/-- C10 (amended): for every sequence of `insert` calls of NON-EMPTY words
of at most `MAX_WORD_LEN` characters since the last reset (the freshly
reset table is empty), in which at most `MAX_WORDS` distinct words occur
— the regime in which the C code stays inside its fixed `g_word`,
hash-slot, `used_indices` and `word_list` buffers — the snapshot produced
by `walk` lists exactly the distinct inserted words, each once (`Nodup`),
in the order of their first successful insertion (`firstOccs`), and its
length equals the number of inserts that returned `true`.  (The
restriction to non-empty words is forced: the empty string is
indistinguishable from an empty slot, see the counterexample.) -/
theorem claim_C10_walk_lists_first_insertions (ws : List (List Nat))
    (hne : ∀ w ∈ ws, w ≠ []) (hlen : ∀ w ∈ ws, w.length ≤ MAX_WORD_LEN)
    (hcap : (firstOccs ws).length ≤ MAX_WORDS) :
    walk (runInserts emptyHT ws).1 = firstOccs ws ∧
    (walk (runInserts emptyHT ws).1).Nodup ∧
    (walk (runInserts emptyHT ws).1).length = (runInserts emptyHT ws).2.count true := by
  have hcap' : (firstOccs ws).length < HASH_SIZE := by
    unfold MAX_WORDS at hcap
    unfold HASH_SIZE
    omega
  have h := runInserts_spec ws emptyHT tableInv_empty hne
    (by rw [walk_emptyHT]; exact hcap')
  rw [walk_emptyHT] at h
  obtain ⟨ha, _, hc⟩ := h
  refine ⟨ha, by rw [ha]; exact firstOccsAux_nodup ws [] (List.nodup_nil), ?_⟩
  rw [ha, hc]
  simp [firstOccs]

theorem claim_C10_witness :
    ((∀ w ∈ [[65], [66], [65]], w ≠ ([] : List Nat)) ∧
      (∀ w ∈ [[65], [66], [65]], (w : List Nat).length ≤ MAX_WORD_LEN) ∧
      (firstOccs [[65], [66], [65]]).length ≤ MAX_WORDS) ∧
    (walk (runInserts emptyHT [[65], [66], [65]]).1 = firstOccs [[65], [66], [65]] ∧
     (walk (runInserts emptyHT [[65], [66], [65]]).1).Nodup ∧
     (walk (runInserts emptyHT [[65], [66], [65]]).1).length
        = (runInserts emptyHT [[65], [66], [65]]).2.count true) :=
  ⟨⟨by decide, by decide, by decide⟩,
    claim_C10_walk_lists_first_insertions [[65], [66], [65]]
      (by decide) (by decide) (by decide)⟩

/-- C10 counterexample: inserting the empty string twice.  Both inserts
return `true` (an empty slot looks empty even after the store), and the
walk snapshot lists the empty word twice — not "each distinct word once". -/
theorem claim_C10_counterexample :
    (runInserts emptyHT [[], []]).2 = [true, true] ∧
    walk (runInserts emptyHT [[], []]).1 = [[], []] ∧
    ¬ (walk (runInserts emptyHT [[], []]).1).Nodup := by
  refine ⟨by decide, by decide, fun h => ?_⟩
  rw [show walk (runInserts emptyHT [[], []]).1 = [[], []] from by decide] at h
  simp at h

/-! ## DAWG trace lemmas -/

theorem traceFrom_single (d : Nat → Nat) (ds i c : Nat) :
    traceFrom d ds i [c] = scanSibs d c ds i := rfl

theorem traceFrom_cons_cons (d : Nat → Nat) (ds i c c2 : Nat) (cs : List Nat) :
    traceFrom d ds i (c :: c2 :: cs)
      = (if scanSibs d c ds i = 0 then 0
         else traceFrom d ds (DAWG_CHILD d (scanSibs d c ds i)) (c2 :: cs)) := rfl

/-- Tracing a concatenation: trace the first part, then continue from its
child chain. -/
theorem traceFrom_append (d : Nat → Nat) (ds : Nat) {b : List Nat} (hb : b ≠ []) :
    ∀ (a : List Nat) (i : Nat), a ≠ [] →
      traceFrom d ds i (a ++ b)
        = (if traceFrom d ds i a = 0 then 0
           else traceFrom d ds (DAWG_CHILD d (traceFrom d ds i a)) b) := by
  intro a
  induction a with
  | nil => intro i h; exact absurd rfl h
  | cons c a' ih =>
    intro i _
    cases a' with
    | nil =>
      cases b with
      | nil => exact absurd rfl hb
      | cons b0 bs =>
        rw [List.singleton_append, traceFrom_cons_cons, traceFrom_single]
    | cons c2 a'' =>
      rw [List.cons_append, List.cons_append, traceFrom_cons_cons,
        traceFrom_cons_cons]
      by_cases hj : scanSibs d c ds i = 0
      · rw [if_pos hj, if_pos hj]
        simp
      · rw [if_neg hj, if_neg hj, ← List.cons_append,
          ih (DAWG_CHILD d (scanSibs d c ds i)) (by simp)]

/-- If the whole word traces to a live node, so does every non-empty
prefix of it. -/
theorem traceFrom_ne_zero_of_append (d : Nat → Nat) (ds : Nat) {a b : List Nat}
    {i : Nat} (ha : a ≠ []) (hb : b ≠ [])
    (h : traceFrom d ds i (a ++ b) ≠ 0) : traceFrom d ds i a ≠ 0 := by
  intro h0
  rw [traceFrom_append d ds hb a i ha, if_pos h0] at h
  exact h rfl

/-- Under the chain invariant, extending the word by one letter traces via
the scan the search performs. -/
theorem trace_extend {E : Env} {word : List Nat} {i : Nat} (hci : ChainInv E word i)
    (c : Nat) :
    traceFrom E.dawg E.dsize 1 (word ++ [c]) = scanSibs E.dawg c E.dsize i := by
  rcases hci with ⟨hw, hi⟩ | ⟨hw, htr, hi⟩
  · rw [hw, hi, List.nil_append, traceFrom_single]
  · rw [traceFrom_append E.dawg E.dsize (by simp) word 1 hw, if_neg htr,
      traceFrom_single, hi]

theorem chainInv_extend {E : Env} {word : List Nat} (c : Nat)
    (hne : traceFrom E.dawg E.dsize 1 (word ++ [c]) ≠ 0) :
    ChainInv E (word ++ [c])
      (DAWG_CHILD E.dawg (traceFrom E.dawg E.dsize 1 (word ++ [c]))) :=
  Or.inr ⟨by simp, hne, rfl⟩

theorem dawgMem_iff {d : Nat → Nat} {ds : Nat} {w : List Nat} :
    dawgMem d ds w = true ↔
      traceFrom d ds 1 w ≠ 0 ∧ DAWG_EOW d (traceFrom d ds 1 w) = true := by
  simp [dawgMem]

/-! ## Mask lemmas -/

theorem maskComputed_ne_zero (p : Nat) : maskComputed p ≠ 0 := by
  unfold maskComputed
  split
  · decide
  · positivity

theorem maskComputed_eq_two_pow {p : Nat} (hp : p < 31) : maskComputed p = 2 ^ p := by
  unfold maskComputed
  rw [Nat.mod_eq_of_lt (by omega), if_neg (by omega)]

/-- Masks of distinct positions below 32 are bitwise disjoint (positions
31 vs smaller included: the sign-extended pattern occupies bits 31-63). -/
theorem maskComputed_disjoint : ∀ p < 32, ∀ q < 32, p ≠ q →
    maskComputed p &&& maskComputed q = 0 := by
  have h : ∀ p < 32, ∀ q < 32, p ≠ q →
      (if p % 32 = 31 then (0xFFFFFFFF80000000 : Nat) else 2 ^ (p % 32)) &&&
      (if q % 32 = 31 then (0xFFFFFFFF80000000 : Nat) else 2 ^ (q % 32)) = 0 := by decide
  intro p hp q hq hne
  exact h p hp q hq hne

theorem land_eq_zero_comm {a b : Nat} (h : a &&& b = 0) : b &&& a = 0 := by
  rwa [Nat.land_comm] at h

theorem lor_land_eq_zero_iff (a b c : Nat) :
    (a ||| b) &&& c = 0 ↔ a &&& c = 0 ∧ b &&& c = 0 := by
  constructor
  · intro h
    constructor <;> apply Nat.eq_of_testBit_eq <;> intro i <;>
      have hi := congrArg (fun n => n.testBit i) h <;>
      simp only [Nat.testBit_land, Nat.testBit_lor, Nat.zero_testBit,
        Bool.and_eq_false_iff, Bool.or_eq_false_iff] at hi ⊢ <;>
      rcases hi with ⟨h1, h2⟩ | h3
    · exact Or.inl h1
    · exact Or.inr h3
    · exact Or.inl h2
    · exact Or.inr h3
  · rintro ⟨h1, h2⟩
    apply Nat.eq_of_testBit_eq
    intro i
    have hi1 := congrArg (fun n => n.testBit i) h1
    have hi2 := congrArg (fun n => n.testBit i) h2
    simp only [Nat.testBit_land, Nat.testBit_lor, Nat.zero_testBit,
      Bool.and_eq_false_iff, Bool.or_eq_false_iff] at hi1 hi2 ⊢
    rcases hi1 with h | h
    · rcases hi2 with h' | h'
      · exact Or.inl ⟨h, h'⟩
      · exact Or.inr h'
    · exact Or.inr h

theorem inBounds_width_pos {E : Env} {p : Nat × Nat} (hp : inBounds E p) :
    0 < E.board_width := by have := hp.2; omega

theorem posIdx_lt {E : Env} {p : Nat × Nat} (hp : inBounds E p) :
    posIdx E p < E.board_width * E.board_height := by
  obtain ⟨h1, h2⟩ := hp
  unfold posIdx
  calc p.1 * E.board_width + p.2 < p.1 * E.board_width + E.board_width := by omega
    _ = (p.1 + 1) * E.board_width := by ring
    _ ≤ E.board_height * E.board_width := Nat.mul_le_mul_right _ (by omega)
    _ = E.board_width * E.board_height := Nat.mul_comm _ _

theorem posIdx_inj {E : Env} {p q : Nat × Nat} (hp : inBounds E p) (hq : inBounds E q)
    (h : posIdx E p = posIdx E q) : p = q := by
  obtain ⟨hp1, hp2⟩ := hp
  obtain ⟨hq1, hq2⟩ := hq
  have hw : 0 < E.board_width := by omega
  unfold posIdx at h
  have h1 : p.1 = q.1 := by
    have e1 : (p.1 * E.board_width + p.2) / E.board_width = p.1 := by
      rw [Nat.mul_comm, Nat.mul_add_div hw, Nat.div_eq_of_lt hp2]; omega
    have e2 : (q.1 * E.board_width + q.2) / E.board_width = q.1 := by
      rw [Nat.mul_comm, Nat.mul_add_div hw, Nat.div_eq_of_lt hq2]; omega
    rw [← e1, ← e2, h]
  have h2 : p.2 = q.2 := by
    have := h
    rw [h1] at this
    omega
  exact Prod.ext h1 h2

theorem usedOf_append (E : Env) (path : List (Nat × Nat)) (q : Nat × Nat) :
    usedOf E (path ++ [q]) = usedOf E path ||| maskComputed (posIdx E q) := by
  induction path with
  | nil => simp [usedOf, Nat.or_zero, Nat.zero_or]
  | cons p rest ih =>
    show maskComputed (posIdx E p) ||| usedOf E (rest ++ [q]) = _
    rw [ih]
    exact (Nat.lor_assoc _ _ _).symm

/-- On boards of at most 32 tiles, the used-mask test is exact: the bit
test fires iff the tile is on the current path. -/
theorem usedOf_fresh {E : Env} (h32 : E.board_width * E.board_height ≤ 32)
    {path : List (Nat × Nat)} (hpath : ∀ p ∈ path, inBounds E p)
    {q : Nat × Nat} (hq : inBounds E q) :
    (usedOf E path &&& maskComputed (posIdx E q) = 0) ↔ q ∉ path := by
  induction path with
  | nil => simp [usedOf, Nat.zero_and]
  | cons p rest ih =>
    have hpin : inBounds E p := hpath p (by simp)
    have hrest : ∀ r ∈ rest, inBounds E r := fun r hr => hpath r (by simp [hr])
    show (maskComputed (posIdx E p) ||| usedOf E rest) &&& _ = 0 ↔ _
    rw [lor_land_eq_zero_iff, ih hrest]
    constructor
    · rintro ⟨h1, h2⟩ hqmem
      rcases List.mem_cons.1 hqmem with he | hm
      · rw [he] at h1
        exact maskComputed_ne_zero _ (by rwa [Nat.and_self] at h1)
      · exact h2 hm
    · intro hnm
      have hpq : p ≠ q := fun he => hnm (by rw [he]; exact List.mem_cons_self _ _)
      refine ⟨?_, fun hm => hnm (List.mem_cons.2 (Or.inr hm))⟩
      apply maskComputed_disjoint _ ?_ _ ?_ ?_
      · exact lt_of_lt_of_le (posIdx_lt hpin) h32
      · exact lt_of_lt_of_le (posIdx_lt hq) h32
      · intro he
        exact hpq (posIdx_inj hpin hq he)

/-! ## Basic `find_words` lemmas -/

/-- With the fail flag set, `find_words` returns immediately: abort signal,
state untouched. -/
theorem fw_fail_frozen (E : Env) (fuel i : Nat) (word : List Nat) (y x used : Nat)
    (s : St) (hs : s.failed = true) :
    find_words E fuel i word y x used s = (false, s) := by
  cases fuel with
  | zero => simp [find_words, hs]
  | succ fuel => simp [find_words, hs]

theorem acceptWord_tbl (E : Env) (w : List Nat) (s : St) :
    (acceptWord E w s).2.tbl = (insert s.tbl w).2 := by
  unfold acceptWord
  dsimp only
  split_ifs <;> rfl

theorem acceptWord_num (E : Env) (w : List Nat) (s : St) :
    (acceptWord E w s).2.num_words
      = s.num_words + (if (insert s.tbl w).1 then 1 else 0) := by
  unfold acceptWord
  dsimp only
  split_ifs with h <;> simp [h]

theorem acceptWord_failed_of_true (E : Env) (w : List Nat) (s : St)
    (h : (acceptWord E w s).1 = true) : (acceptWord E w s).2.failed = s.failed := by
  unfold acceptWord at h ⊢
  dsimp only at h ⊢
  split_ifs at h ⊢ <;> first | rfl | simp_all

theorem acceptWord_false_iff (E : Env) (w : List Nat) (s : St) (hs : s.failed = false) :
    ((acceptWord E w s).1 = false ↔ (acceptWord E w s).2.failed = true) := by
  unfold acceptWord
  dsimp only
  split_ifs <;> simp [hs]

/-- Fold-preservation over any delta list: a property of accumulators that
each in-bounds recursive call preserves is preserved by the whole loop. -/
theorem nbFold_pres (E : Env) (go : Nat → Nat → St → Bool × St) (y x : Nat)
    (P : Bool × St → Prop) :
    ∀ (l : List (Int × Int)),
      (∀ dd ∈ l, ∀ s,
        0 ≤ (y : Int) + dd.1 → (y : Int) + dd.1 ≤ (E.board_height : Int) - 1 →
        0 ≤ (x : Int) + dd.2 → (x : Int) + dd.2 ≤ (E.board_width : Int) - 1 →
        P (true, s) → P (go ((y : Int) + dd.1).toNat ((x : Int) + dd.2).toNat s)) →
      ∀ acc, P acc →
        P (l.foldl (fun a dd => nbStep E go ((y : Int) + dd.1) ((x : Int) + dd.2) a) acc) := by
  intro l
  induction l with
  | nil => intro _ acc h; exact h
  | cons dd l' ih =>
    intro hgo acc hacc
    rw [List.foldl_cons]
    apply ih (fun d hd => hgo d (List.mem_cons.2 (Or.inr hd)))
    rcases acc with ⟨b, s⟩
    cases b with
    | false => exact hacc
    | true =>
      show P (nbStep E go ((y : Int) + dd.1) ((x : Int) + dd.2) (true, s))
      unfold nbStep
      split_ifs with h
      · exact hgo dd (List.mem_cons.2 (Or.inl rfl)) s h.1 h.2.1 h.2.2.1 h.2.2.2 hacc
      · exact hacc

theorem afterMatch_false_iff (E : Env) (go : Nat → List Nat → Nat → Nat → Nat → St → Bool × St)
    (i : Nat) (word : List Nat) (y x used : Nat) (s : St)
    (hs : s.failed = false)
    (hgo : ∀ i' w' ny nx u' s',
      ((go i' w' ny nx u' s').1 = false ↔ (go i' w' ny nx u' s').2.failed = true)) :
    ((afterMatch E go i word y x used s).1 = false ↔
      (afterMatch E go i word y x used s).2.failed = true) := by
  have hQ : ∀ (s' : St), s'.failed = false →
      (((nbAll E (fun ny nx s'' => go (DAWG_CHILD E.dawg i) word ny nx
          (used ||| maskComputed (y * E.board_width + x)) s'') y x (true, s')).1 = false) ↔
       ((nbAll E (fun ny nx s'' => go (DAWG_CHILD E.dawg i) word ny nx
          (used ||| maskComputed (y * E.board_width + x)) s'') y x (true, s')).2.failed = true)) := by
    intro s' hs'
    unfold nbAll
    have := nbFold_pres E (fun ny nx s'' => go (DAWG_CHILD E.dawg i) word ny nx
        (used ||| maskComputed (y * E.board_width + x)) s'') y x
      (fun acc => (acc.1 = false ↔ acc.2.failed = true)) g_deltas
      (fun dd _ s'' _ _ _ _ _ => hgo _ _ _ _ _ s'') (true, s') (by simp [hs'])
    exact this
  unfold afterMatch
  by_cases hg : DAWG_EOW E.dawg i = true ∧ E.min_legal ≤ word.length
  · rw [if_pos hg]
    rcases hacc : acceptWord E word s with ⟨b, s'⟩
    cases b with
    | false =>
      have hthis := acceptWord_false_iff E word s hs
      rw [hacc] at hthis
      exact hthis
    | true =>
      have h1 := acceptWord_failed_of_true E word s (by rw [hacc])
      rw [hacc] at h1
      exact hQ s' (by simpa [hs] using h1)
  · rw [if_neg hg]
    exact hQ s hs

theorem spell_append (E : Env) (a b : List (Nat × Nat)) :
    spell E (a ++ b) = spell E a ++ spell E b := by
  simp [spell]

theorem tileExp_ne_nil (c : Nat) : tileExp c ≠ [] := by
  unfold tileExp
  split <;> simp

theorem spell_ne_nil (E : Env) {path : List (Nat × Nat)} (h : path ≠ []) :
    spell E path ≠ [] := by
  cases path with
  | nil => exact absurd rfl h
  | cons p rest =>
    show tileExp (tileAt E p) ++ spell E rest ≠ []
    simp [tileExp_ne_nil]

/-- Accepting a legitimate word preserves the search-state invariant and
only appends to the walk list. -/
theorem acceptWord_sound (E : Env) (w : List Nat) (s : St)
    (hSI : SInv E s) (hgw : GoodWord E w) (hw : w ≠ []) :
    SInv E (acceptWord E w s).2 ∧ s.num_words ≤ (acceptWord E w s).2.num_words ∧
    ∃ ext, walk (acceptWord E w s).2.tbl = walk s.tbl ++ ext := by
  obtain ⟨hti, hwalki, _, hleni, _⟩ := insert_spec s.tbl w hSI.tinv hw
  have htbl := acceptWord_tbl E w s
  have hnum := acceptWord_num E w s
  refine ⟨⟨by rw [htbl]; exact hti, ?_, ?_⟩, by omega, ?_⟩
  · rw [htbl, hnum, hleni, hSI.numeq]
  · intro v hv
    rw [htbl, hwalki] at hv
    rcases List.mem_append.1 hv with hv | hv
    · exact hSI.sound v hv
    · split_ifs at hv
      · rw [List.mem_singleton] at hv
        exact hv ▸ hgw
      · simp at hv
  · rw [htbl, hwalki]
    exact ⟨_, rfl⟩

/-- The soundness/monotonicity core for `afterMatch`: given that the
extended path facts hold for the matched node, the state invariant is
preserved and the walk list only grows. -/
theorem afterMatch_sound (E : Env) (go : Nat → List Nat → Nat → Nat → Nat → St → Bool × St)
    (i' : Nat) (word' : List Nat) (y x used : Nat) (s : St) (path : List (Nat × Nat))
    (hnodup : (path ++ [(y, x)]).Nodup)
    (hbounds : ∀ p ∈ path ++ [(y, x)], inBounds E p)
    (hchain : (path ++ [(y, x)]).Chain' adjacent)
    (hspell : spell E (path ++ [(y, x)]) = word')
    (hused : used ||| maskComputed (y * E.board_width + x) = usedOf E (path ++ [(y, x)]))
    (htr : traceFrom E.dawg E.dsize 1 word' = i')
    (hine : i' ≠ 0)
    (hwne : word' ≠ [])
    (hSI : SInv E s)
    (hgo : ∀ i₂ w₂ ny nx u₂ s₂ path₂, PathPre E path₂ w₂ i₂ u₂ ny nx → SInv E s₂ →
      SInv E (go i₂ w₂ ny nx u₂ s₂).2 ∧
      s₂.num_words ≤ (go i₂ w₂ ny nx u₂ s₂).2.num_words ∧
      ∃ ext, walk (go i₂ w₂ ny nx u₂ s₂).2.tbl = walk s₂.tbl ++ ext) :
    SInv E (afterMatch E go i' word' y x used s).2 ∧
    s.num_words ≤ (afterMatch E go i' word' y x used s).2.num_words ∧
    ∃ ext, walk (afterMatch E go i' word' y x used s).2.tbl = walk s.tbl ++ ext := by
  have hfold : ∀ (s' : St), SInv E s' → s.num_words ≤ s'.num_words →
      (∃ ext, walk s'.tbl = walk s.tbl ++ ext) →
      SInv E ((nbAll E (fun ny nx s'' => go (DAWG_CHILD E.dawg i') word' ny nx
          (used ||| maskComputed (y * E.board_width + x)) s'') y x (true, s')).2) ∧
      s.num_words ≤ (nbAll E (fun ny nx s'' => go (DAWG_CHILD E.dawg i') word' ny nx
          (used ||| maskComputed (y * E.board_width + x)) s'') y x (true, s')).2.num_words ∧
      ∃ ext, walk ((nbAll E (fun ny nx s'' => go (DAWG_CHILD E.dawg i') word' ny nx
          (used ||| maskComputed (y * E.board_width + x)) s'') y x (true, s')).2.tbl)
        = walk s.tbl ++ ext := by
    intro s' hSI' hnum' hext'
    unfold nbAll
    refine nbFold_pres E _ y x
      (fun acc => SInv E acc.2 ∧ s.num_words ≤ acc.2.num_words ∧
        ∃ ext, walk acc.2.tbl = walk s.tbl ++ ext) g_deltas ?_ (true, s')
      ⟨hSI', hnum', hext'⟩
    intro dd hdd s₂ hny0 hny1 hnx0 hnx1 hP
    have hb : inBounds E (((y : Int) + dd.1).toNat, ((x : Int) + dd.2).toNat) := by
      constructor
      · show ((y : Int) + dd.1).toNat < E.board_height
        omega
      · show ((x : Int) + dd.2).toNat < E.board_width
        omega
    have hadj : adjacent (y, x) (((y : Int) + dd.1).toNat, ((x : Int) + dd.2).toNat) := by
      refine ⟨dd, hdd, ?_, ?_⟩ <;> simp <;> omega
    have hpre₂ : PathPre E (path ++ [(y, x)]) word' (DAWG_CHILD E.dawg i')
        (used ||| maskComputed (y * E.board_width + x))
        ((y : Int) + dd.1).toNat ((x : Int) + dd.2).toNat := by
      refine ⟨hnodup, hbounds, hchain, ?_, hspell, hused.symm ▸ rfl, ?_, hb⟩
      · intro p hp
        rw [List.getLast?_concat] at hp
        cases hp
        exact hadj
      · exact Or.inr ⟨hwne, htr ▸ hine, by rw [htr]⟩
    obtain ⟨hA, hB, ext2, hC⟩ := hgo _ _ _ _ _ s₂ _ hpre₂ hP.1
    obtain ⟨ext1, hD⟩ := hP.2.2
    exact ⟨hA, le_trans hP.2.1 hB, ext1 ++ ext2, by rw [hC, hD, List.append_assoc]⟩
  unfold afterMatch
  by_cases hg : DAWG_EOW E.dawg i' = true ∧ E.min_legal ≤ word'.length
  · rw [if_pos hg]
    have hgw : GoodWord E word' := by
      refine ⟨dawgMem_iff.2 ⟨htr ▸ hine, by rw [htr]; exact hg.1⟩, ?_, hg.2⟩
      exact ⟨path ++ [(y, x)], ⟨by simp, hnodup, hbounds, hchain⟩, hspell⟩
    obtain ⟨hA, hB, ext, hC⟩ := acceptWord_sound E word' s hSI hgw hwne
    rcases hacc : acceptWord E word' s with ⟨b, s'⟩
    rw [hacc] at hA hB hC
    cases b with
    | false => exact ⟨hA, hB, ext, hC⟩
    | true => exact hfold s' hA hB ⟨ext, hC⟩
  · rw [if_neg hg]
    exact hfold s hSI (le_refl _) ⟨[], by simp⟩

/-- The abort signal and the fail flag coincide at every call. -/
theorem fw_false_iff (E : Env) :
    ∀ (fuel i : Nat) (word : List Nat) (y x used : Nat) (s : St),
      ((find_words E fuel i word y x used s).1 = false ↔
        (find_words E fuel i word y x used s).2.failed = true) := by
  intro fuel
  induction fuel with
  | zero =>
    intro i word y x used s
    cases hs : s.failed <;> simp [find_words, hs]
  | succ fuel ih =>
    intro i word y x used s
    cases hs : s.failed with
    | true => simp [find_words, hs]
    | false =>
      simp only [find_words]
      rw [if_neg (show ¬ s.failed = true by simp [hs])]
      by_cases hmask : used &&& maskComputed (y * E.board_width + x) ≠ 0
      · rw [if_pos hmask]; simp [hs]
      · rw [if_neg hmask]
        by_cases hlt : 65 ≤ E.dice (y * E.board_width + x)
        · rw [if_pos hlt]
          by_cases hi : scanSibs E.dawg (E.dice (y * E.board_width + x)) E.dsize i = 0
          · rw [if_pos hi]; simp [hs]
          · rw [if_neg hi]
            exact afterMatch_false_iff E _ _ _ y x used s hs fun i' w' ny nx u' s' =>
              ih i' w' ny nx u' s'
        · rw [if_neg hlt]
          by_cases hj : scanSibs E.dawg
              ((g_special_dice.getD (E.dice (y * E.board_width + x) - 48) (0, 0)).1)
              E.dsize i = 0
          · rw [if_pos hj]; simp [hs]
          · rw [if_neg hj]
            by_cases hk : scanSibs E.dawg
                ((g_special_dice.getD (E.dice (y * E.board_width + x) - 48) (0, 0)).2)
                E.dsize (DAWG_CHILD E.dawg (scanSibs E.dawg
                  ((g_special_dice.getD (E.dice (y * E.board_width + x) - 48) (0, 0)).1)
                  E.dsize i)) = 0
            · rw [if_pos hk]; simp [hs]
            · rw [if_neg hk]
              exact afterMatch_false_iff E _ _ _ y x used s hs fun i' w' ny nx u' s' =>
                ih i' w' ny nx u' s'

/-- Soundness and monotonicity of the recursive search: under the call
invariants, every call preserves the state invariant (so every stored word
stays legitimate), never decreases `g_num_words`, and only appends to the
walk list. -/
theorem fw_sound (E : Env) (h32 : E.board_width * E.board_height ≤ 32) :
    ∀ (fuel i : Nat) (word : List Nat) (y x used : Nat) (s : St)
      (path : List (Nat × Nat)),
      PathPre E path word i used y x → SInv E s →
      SInv E (find_words E fuel i word y x used s).2 ∧
      s.num_words ≤ (find_words E fuel i word y x used s).2.num_words ∧
      ∃ ext, walk (find_words E fuel i word y x used s).2.tbl = walk s.tbl ++ ext := by
  intro fuel
  induction fuel with
  | zero =>
    intro i word y x used s path _ hSI
    exact ⟨hSI, le_refl _, [], by simp [find_words]⟩
  | succ fuel ih =>
    intro i word y x used s path hpre hSI
    obtain ⟨hnodup, hbounds, hchain, hlast, hspell, hused, hci, hxy⟩ := hpre
    by_cases hs : s.failed = true
    · rw [fw_fail_frozen E (fuel + 1) i word y x used s hs]
      exact ⟨hSI, le_refl _, [], by simp⟩
    · simp only [find_words]
      rw [if_neg hs]
      by_cases hmask : used &&& maskComputed (y * E.board_width + x) ≠ 0
      · rw [if_pos hmask]
        exact ⟨hSI, le_refl _, [], by simp⟩
      · rw [if_neg hmask]
        push_neg at hmask
        have hfresh : (y, x) ∉ path := by
          rw [hused] at hmask
          exact (usedOf_fresh h32 hbounds hxy).1 hmask
        have hnodup' : (path ++ [(y, x)]).Nodup := by
          rw [List.nodup_append]
          exact ⟨hnodup, List.nodup_singleton _,
            fun a ha hb => by rw [List.mem_singleton] at hb; exact hfresh (hb ▸ ha)⟩
        have hbounds' : ∀ p ∈ path ++ [(y, x)], inBounds E p := by
          intro p hp
          rcases List.mem_append.1 hp with hp | hp
          · exact hbounds p hp
          · rw [List.mem_singleton] at hp; exact hp ▸ hxy
        have hchain' : (path ++ [(y, x)]).Chain' adjacent := by
          rw [List.chain'_append]
          refine ⟨hchain, List.chain'_singleton _, ?_⟩
          intro a ha b hb
          simp only [List.head?_cons, Option.mem_def, Option.some.injEq] at hb
          rw [Option.mem_def] at ha
          exact hb ▸ hlast a ha
        have husedq : used ||| maskComputed (y * E.board_width + x)
            = usedOf E (path ++ [(y, x)]) := by
          rw [usedOf_append, hused]
          rfl
        by_cases hlt : 65 ≤ E.dice (y * E.board_width + x)
        · rw [if_pos hlt]
          by_cases hi : scanSibs E.dawg (E.dice (y * E.board_width + x)) E.dsize i = 0
          · rw [if_pos hi]
            exact ⟨hSI, le_refl _, [], by simp⟩
          · rw [if_neg hi]
            apply afterMatch_sound E _ _ _ y x used s path hnodup' hbounds' hchain'
              ?_ husedq ?_ hi ?_ hSI
              (fun i₂ w₂ ny nx u₂ s₂ path₂ hp₂ hs₂ => ih i₂ w₂ ny nx u₂ s₂ path₂ hp₂ hs₂)
            · rw [spell_append, hspell]
              show word ++ spell E [(y, x)] = word ++ [E.dice (y * E.board_width + x)]
              congr 1
              show tileExp (tileAt E (y, x)) ++ [] = _
              rw [List.append_nil]
              unfold tileExp tileAt posIdx
              rw [if_pos hlt]
            · exact trace_extend hci _
            · simp
        · rw [if_neg hlt]
          by_cases hj : scanSibs E.dawg
              ((g_special_dice.getD (E.dice (y * E.board_width + x) - 48) (0, 0)).1)
              E.dsize i = 0
          · rw [if_pos hj]
            exact ⟨hSI, le_refl _, [], by simp⟩
          · rw [if_neg hj]
            by_cases hk : scanSibs E.dawg
                ((g_special_dice.getD (E.dice (y * E.board_width + x) - 48) (0, 0)).2)
                E.dsize (DAWG_CHILD E.dawg (scanSibs E.dawg
                  ((g_special_dice.getD (E.dice (y * E.board_width + x) - 48) (0, 0)).1)
                  E.dsize i)) = 0
            · rw [if_pos hk]
              exact ⟨hSI, le_refl _, [], by simp⟩
            · rw [if_neg hk]
              have htr1 : traceFrom E.dawg E.dsize 1
                  (word ++ [(g_special_dice.getD (E.dice (y * E.board_width + x) - 48) (0, 0)).1])
                  = scanSibs E.dawg
                    ((g_special_dice.getD (E.dice (y * E.board_width + x) - 48) (0, 0)).1)
                    E.dsize i := trace_extend hci _
              have hci1 : ChainInv E
                  (word ++ [(g_special_dice.getD (E.dice (y * E.board_width + x) - 48) (0, 0)).1])
                  (DAWG_CHILD E.dawg (scanSibs E.dawg
                    ((g_special_dice.getD (E.dice (y * E.board_width + x) - 48) (0, 0)).1)
                    E.dsize i)) :=
                Or.inr ⟨by simp, htr1 ▸ hj, by rw [htr1]⟩
              have htr2 : traceFrom E.dawg E.dsize 1
                  ((word ++ [(g_special_dice.getD (E.dice (y * E.board_width + x) - 48) (0, 0)).1])
                    ++ [(g_special_dice.getD (E.dice (y * E.board_width + x) - 48) (0, 0)).2])
                  = scanSibs E.dawg
                    ((g_special_dice.getD (E.dice (y * E.board_width + x) - 48) (0, 0)).2)
                    E.dsize (DAWG_CHILD E.dawg (scanSibs E.dawg
                      ((g_special_dice.getD (E.dice (y * E.board_width + x) - 48) (0, 0)).1)
                      E.dsize i)) := trace_extend hci1 _
              apply afterMatch_sound E _ _ _ y x used s path hnodup' hbounds' hchain'
                ?_ husedq ?_ hk ?_ hSI
                (fun i₂ w₂ ny nx u₂ s₂ path₂ hp₂ hs₂ => ih i₂ w₂ ny nx u₂ s₂ path₂ hp₂ hs₂)
              · rw [spell_append, hspell]
                congr 1
                show tileExp (tileAt E (y, x)) ++ [] = _
                rw [List.append_nil]
                unfold tileExp tileAt posIdx
                rw [if_neg hlt]
              · rw [show word ++ [(g_special_dice.getD (E.dice (y * E.board_width + x) - 48) (0, 0)).1,
                    (g_special_dice.getD (E.dice (y * E.board_width + x) - 48) (0, 0)).2]
                  = (word ++ [(g_special_dice.getD (E.dice (y * E.board_width + x) - 48) (0, 0)).1])
                    ++ [(g_special_dice.getD (E.dice (y * E.board_width + x) - 48) (0, 0)).2] from by simp]
                exact htr2
              · simp

theorem nbStep_false (E : Env) (go : Nat → Nat → St → Bool × St) (ny nx : Int)
    (s : St) : nbStep E go ny nx (false, s) = (false, s) := rfl

/-- An aborted accumulator passes through the rest of the neighbour loop
unchanged. -/
theorem nbFold_false (E : Env) (go : Nat → Nat → St → Bool × St) (y x : Nat)
    (s : St) :
    ∀ (l : List (Int × Int)),
      l.foldl (fun a dd => nbStep E go ((y : Int) + dd.1) ((x : Int) + dd.2) a) (false, s)
        = (false, s) := by
  intro l
  induction l with
  | nil => rfl
  | cons dd l' ih => exact ih

/-- Completeness through `afterMatch`: if the word `W` extends the matched
word along a remaining simple path `ext'` and is in the dictionary, and the
whole call neither aborts nor overflows the store, then `W` ends up in the
walk list.  `hIH` is the completeness induction hypothesis for the
recursive calls. -/
theorem afterMatch_complete (E : Env) (h32 : E.board_width * E.board_height ≤ 32)
    (fuel i' : Nat) (word' : List Nat) (y x used : Nat) (s : St)
    (path ext' : List (Nat × Nat)) (W : List Nat)
    (hnodup : (path ++ [(y, x)]).Nodup)
    (hbounds : ∀ p ∈ path ++ [(y, x)], inBounds E p)
    (hchain : (path ++ [(y, x)]).Chain' adjacent)
    (hspell : spell E (path ++ [(y, x)]) = word')
    (hused : used ||| maskComputed (y * E.board_width + x) = usedOf E (path ++ [(y, x)]))
    (htr : traceFrom E.dawg E.dsize 1 word' = i')
    (hine : i' ≠ 0)
    (hwne : word' ≠ [])
    (hSI : SInv E s)
    (hsf : s.failed = false)
    (hW : W = word' ++ spell E ext')
    (hmem : dawgMem E.dawg E.dsize W = true)
    (hlen : E.min_legal ≤ W.length)
    (hgood : GoodPath E ((path ++ [(y, x)]) ++ ext'))
    (hfuel : ext'.length < fuel)
    (hnofail : (afterMatch E (find_words E fuel) i' word' y x used s).2.failed = false)
    (hcap : (afterMatch E (find_words E fuel) i' word' y x used s).2.num_words < HASH_SIZE)
    (hIH : ∀ (i₂ : Nat) (word₂ : List Nat) (y₂ x₂ u₂ : Nat) (s₂ : St)
      (path₂ ext₂ : List (Nat × Nat)) (W₂ : List Nat),
      PathPre E path₂ word₂ i₂ u₂ y₂ x₂ → SInv E s₂ →
      ext₂.head? = some (y₂, x₂) →
      GoodPath E (path₂ ++ ext₂) →
      W₂ = word₂ ++ spell E ext₂ →
      dawgMem E.dawg E.dsize W₂ = true →
      E.min_legal ≤ W₂.length →
      ext₂.length < fuel →
      (find_words E fuel i₂ word₂ y₂ x₂ u₂ s₂).2.failed = false →
      (find_words E fuel i₂ word₂ y₂ x₂ u₂ s₂).2.num_words < HASH_SIZE →
      W₂ ∈ walk (find_words E fuel i₂ word₂ y₂ x₂ u₂ s₂).2.tbl) :
    W ∈ walk (afterMatch E (find_words E fuel) i' word' y x used s).2.tbl := by
  -- the sound/mono facts for the whole afterMatch node
  have hAMsound := afterMatch_sound E (find_words E fuel) i' word' y x used s path
    hnodup hbounds hchain hspell hused htr hine hwne hSI
    (fun i₂ w₂ ny nx u₂ s₂ path₂ hp₂ hs₂ => fw_sound E h32 fuel i₂ w₂ ny nx u₂ s₂ path₂ hp₂ hs₂)
  -- fold preservation of membership + invariant
  have hfold_mem : ∀ (s₂ : St), SInv E s₂ → W ∈ walk s₂.tbl →
      W ∈ walk ((nbAll E (fun ny nx s'' => find_words E fuel (DAWG_CHILD E.dawg i') word' ny nx
        (used ||| maskComputed (y * E.board_width + x)) s'') y x (true, s₂)).2.tbl) := by
    intro s₂ hSI₂ hmem₂
    unfold nbAll
    refine (nbFold_pres E _ y x
      (fun acc => SInv E acc.2 ∧ W ∈ walk acc.2.tbl) g_deltas ?_ (true, s₂)
      ⟨hSI₂, hmem₂⟩).2
    intro dd hdd s₃ hny0 hny1 hnx0 hnx1 hP
    have hb : inBounds E (((y : Int) + dd.1).toNat, ((x : Int) + dd.2).toNat) :=
      ⟨by show ((y : Int) + dd.1).toNat < E.board_height; omega,
       by show ((x : Int) + dd.2).toNat < E.board_width; omega⟩
    have hpre₂ : PathPre E (path ++ [(y, x)]) word' (DAWG_CHILD E.dawg i')
        (used ||| maskComputed (y * E.board_width + x))
        ((y : Int) + dd.1).toNat ((x : Int) + dd.2).toNat := by
      refine ⟨hnodup, hbounds, hchain, ?_, hspell, hused.symm ▸ rfl, ?_, hb⟩
      · intro p hp
        rw [List.getLast?_concat] at hp
        cases hp
        exact ⟨dd, hdd, by simp; omega, by simp; omega⟩
      · exact Or.inr ⟨hwne, htr ▸ hine, by rw [htr]⟩
    obtain ⟨hA, _, ext2, hC⟩ := fw_sound E h32 fuel _ _ _ _ _ s₃ _ hpre₂ hP.1
    exact ⟨hA, by rw [hC]; exact List.mem_append.2 (Or.inl hP.2)⟩
  -- capacity at the entry state
  have hscap : s.num_words < HASH_SIZE := lt_of_le_of_lt hAMsound.2.1 hcap
  cases hext : ext' with
  | nil =>
    -- W is the matched word itself: it is accepted here (or already stored)
    subst hext
    rw [show spell E [] = [] from rfl, List.append_nil] at hW
    subst hW
    have hg : DAWG_EOW E.dawg i' = true ∧ E.min_legal ≤ W.length := by
      refine ⟨?_, hlen⟩
      have := (dawgMem_iff.1 hmem).2
      rwa [htr] at this
    -- the accept block stores W (novel) or finds it already stored
    have hwin : W ∈ walk (acceptWord E W s).2.tbl := by
      rw [acceptWord_tbl]
      obtain ⟨_, hwalki, _, _, hfalse⟩ := insert_spec s.tbl W hSI.tinv hwne
      cases hb : (insert s.tbl W).1 with
      | true =>
        rw [hwalki, hb]
        simp
      | false =>
        have hmem0 : W ∈ walk s.tbl := by
          by_contra hnm
          rw [insert_true_of_not_mem s.tbl W hSI.tinv
            (by rw [← hSI.numeq]; exact hscap) hwne hnm] at hb
          cases hb
        rw [hfalse hb]
        exact hmem0
    -- push through the branch structure of afterMatch
    unfold afterMatch at hnofail ⊢
    rw [if_pos hg] at hnofail ⊢
    rcases hacc : acceptWord E W s with ⟨b, s₁⟩
    rw [hacc] at hwin
    cases b with
    | false => exact hwin
    | true =>
      have h1 := acceptWord_failed_of_true E W s (by rw [hacc])
      rw [hacc] at h1
      have hSI₁ : SInv E s₁ := by
        have := (acceptWord_sound E W s hSI ⟨hmem, ?_, hg.2⟩ hwne).1
        · rwa [hacc] at this
        · exact ⟨path ++ [(y, x)], ⟨by simp, hnodup, hbounds, hchain⟩,
            by rw [hspell]⟩
      exact hfold_mem s₁ hSI₁ hwin
  | cons q ext'' =>
    subst hext
    -- facts about the next tile q
    have hqb : inBounds E q := hgood.2.2.1 q (by simp)
    have hadjq : adjacent (y, x) q := by
      have hch := hgood.2.2.2
      rw [List.chain'_append] at hch
      exact hch.2.2 (y, x) (by rw [Option.mem_def, List.getLast?_concat])
        q (by simp)
    obtain ⟨dd₀, hddmem, he1, he2⟩ := hadjq
    obtain ⟨l₁, l₂, hsplit⟩ := List.append_of_mem hddmem
    -- the per-delta facts needed by every fold-preservation step below
    have hstep : ∀ dd, dd ∈ g_deltas → ∀ (s₃ : St),
        0 ≤ (y : Int) + dd.1 → (y : Int) + dd.1 ≤ (E.board_height : Int) - 1 →
        0 ≤ (x : Int) + dd.2 → (x : Int) + dd.2 ≤ (E.board_width : Int) - 1 →
        SInv E s₃ →
        SInv E (find_words E fuel (DAWG_CHILD E.dawg i') word'
            ((y : Int) + dd.1).toNat ((x : Int) + dd.2).toNat
            (used ||| maskComputed (y * E.board_width + x)) s₃).2 ∧
        s₃.num_words ≤ (find_words E fuel (DAWG_CHILD E.dawg i') word'
            ((y : Int) + dd.1).toNat ((x : Int) + dd.2).toNat
            (used ||| maskComputed (y * E.board_width + x)) s₃).2.num_words ∧
        ∃ ext2, walk (find_words E fuel (DAWG_CHILD E.dawg i') word'
            ((y : Int) + dd.1).toNat ((x : Int) + dd.2).toNat
            (used ||| maskComputed (y * E.board_width + x)) s₃).2.tbl
          = walk s₃.tbl ++ ext2 := by
      intro dd hdd s₃ hny0 hny1 hnx0 hnx1 hSI₃
      have hb : inBounds E (((y : Int) + dd.1).toNat, ((x : Int) + dd.2).toNat) :=
        ⟨by show ((y : Int) + dd.1).toNat < E.board_height; omega,
         by show ((x : Int) + dd.2).toNat < E.board_width; omega⟩
      have hpre₂ : PathPre E (path ++ [(y, x)]) word' (DAWG_CHILD E.dawg i')
          (used ||| maskComputed (y * E.board_width + x))
          ((y : Int) + dd.1).toNat ((x : Int) + dd.2).toNat := by
        refine ⟨hnodup, hbounds, hchain, ?_, hspell, hused.symm ▸ rfl, ?_, hb⟩
        · intro p hp
          rw [List.getLast?_concat] at hp
          cases hp
          exact ⟨dd, hdd, by simp; omega, by simp; omega⟩
        · exact Or.inr ⟨hwne, htr ▸ hine, by rw [htr]⟩
      exact fw_sound E h32 fuel _ _ _ _ _ s₃ _ hpre₂ hSI₃
    -- the whole neighbour loop, starting from any invariant state s₁,
    -- puts W in the walk list provided the final state did not fail and
    -- stayed within capacity
    have hreach : ∀ (s₁ : St), SInv E s₁ →
        ((nbAll E (fun ny nx s'' => find_words E fuel (DAWG_CHILD E.dawg i') word' ny nx
            (used ||| maskComputed (y * E.board_width + x)) s'') y x (true, s₁)).2.failed
          = false) →
        ((nbAll E (fun ny nx s'' => find_words E fuel (DAWG_CHILD E.dawg i') word' ny nx
            (used ||| maskComputed (y * E.board_width + x)) s'') y x (true, s₁)).2.num_words
          < HASH_SIZE) →
        W ∈ walk ((nbAll E (fun ny nx s'' => find_words E fuel (DAWG_CHILD E.dawg i') word' ny nx
            (used ||| maskComputed (y * E.board_width + x)) s'') y x (true, s₁)).2.tbl) := by
      intro s₁ hSI₁ hFfail hFcap
      unfold nbAll at hFfail hFcap ⊢
      rw [hsplit] at hFfail hFcap ⊢
      rw [List.foldl_append, List.foldl_cons] at hFfail hFcap ⊢
      -- the accumulator just before the dd₀ iteration
      have hP₁ := nbFold_pres E (fun ny nx s'' => find_words E fuel (DAWG_CHILD E.dawg i') word' ny nx (used ||| maskComputed (y * E.board_width + x)) s'') y x
        (fun acc => SInv E acc.2 ∧ (acc.1 = false → acc.2.failed = true)) l₁
        (fun dd hdd s₃ h1 h2 h3 h4 hP =>
          ⟨(hstep dd (by rw [hsplit]; exact List.mem_append.2 (Or.inl hdd)) s₃ h1 h2 h3 h4 hP.1).1,
           fun hf => (fw_false_iff E fuel _ _ _ _ _ _).1 hf⟩)
        (true, s₁) ⟨hSI₁, by simp⟩
      rcases hacc₁ : (l₁.foldl (fun a dd => nbStep E
          (fun ny nx s'' => find_words E fuel (DAWG_CHILD E.dawg i') word' ny nx
            (used ||| maskComputed (y * E.board_width + x)) s'') ((y : Int) + dd.1)
          ((x : Int) + dd.2) a) (true, s₁)) with ⟨b₁, sk⟩
      rw [hacc₁] at hP₁ hFfail hFcap ⊢
      cases b₁ with
      | false =>
        rw [nbStep_false, nbFold_false] at hFfail
        exact absurd (hP₁.2 rfl) (by rw [hFfail]; simp)
      | true =>
        -- the dd₀ iteration fires and is the recursive call at q
        have hskInv : SInv E sk := hP₁.1
        have hguard : 0 ≤ (y : Int) + dd₀.1 ∧ (y : Int) + dd₀.1 ≤ (E.board_height : Int) - 1 ∧
            0 ≤ (x : Int) + dd₀.2 ∧ (x : Int) + dd₀.2 ≤ (E.board_width : Int) - 1 := by
          have h1 := hqb.1
          have h2 := hqb.2
          omega
        have hq1 : ((y : Int) + dd₀.1).toNat = q.1 := by omega
        have hq2 : ((x : Int) + dd₀.2).toNat = q.2 := by omega
        have hstepq : nbStep E (fun ny nx s'' => find_words E fuel (DAWG_CHILD E.dawg i') word' ny nx
            (used ||| maskComputed (y * E.board_width + x)) s'') ((y : Int) + dd₀.1)
            ((x : Int) + dd₀.2) (true, sk)
            = find_words E fuel (DAWG_CHILD E.dawg i') word' q.1 q.2
              (used ||| maskComputed (y * E.board_width + x)) sk := by
          simp only [nbStep]
          rw [if_pos hguard, hq1, hq2]
        rw [hstepq] at hFfail hFcap ⊢
        -- preservation over the remaining deltas l₂
        have hl₂mem : ∀ dd ∈ l₂, dd ∈ g_deltas := by
          intro dd hdd
          rw [hsplit]
          exact List.mem_append.2 (Or.inr (List.mem_cons.2 (Or.inr hdd)))
        rcases hR : find_words E fuel (DAWG_CHILD E.dawg i') word' q.1 q.2
            (used ||| maskComputed (y * E.board_width + x)) sk with ⟨rb, rs⟩
        rw [hR] at hFfail hFcap
        -- R's own invariant
        have hpreq : PathPre E (path ++ [(y, x)]) word' (DAWG_CHILD E.dawg i')
            (used ||| maskComputed (y * E.board_width + x)) q.1 q.2 := by
          refine ⟨hnodup, hbounds, hchain, ?_, hspell, hused.symm ▸ rfl, ?_, ?_⟩
          · intro p hp
            rw [List.getLast?_concat] at hp
            cases hp
            exact ⟨dd₀, hddmem, by rw [← he1], by rw [← he2]⟩
          · exact Or.inr ⟨hwne, htr ▸ hine, by rw [htr]⟩
          · exact ⟨hqb.1, hqb.2⟩
        have hRsound := fw_sound E h32 fuel _ _ _ _ _ sk _ hpreq hskInv
        rw [hR] at hRsound
        cases rb with
        | false =>
          rw [nbFold_false] at hFfail
          have := (fw_false_iff E fuel (DAWG_CHILD E.dawg i') word' q.1 q.2
            (used ||| maskComputed (y * E.board_width + x)) sk).1 (by rw [hR])
          rw [hR] at this
          exact absurd this (by rw [hFfail]; simp)
        | true =>
          have hRfail : rs.failed = false := by
            by_contra hf
            have h1 := (fw_false_iff E fuel (DAWG_CHILD E.dawg i') word' q.1 q.2
              (used ||| maskComputed (y * E.board_width + x)) sk).2
            rw [hR] at h1
            have := h1 (by simpa using hf)
            simp at this
          -- capacity at R, through the remaining fold
          have hP₂ := nbFold_pres E (fun ny nx s'' => find_words E fuel (DAWG_CHILD E.dawg i') word' ny nx (used ||| maskComputed (y * E.board_width + x)) s'') y x
            (fun acc => SInv E acc.2 ∧ rs.num_words ≤ acc.2.num_words) l₂
            (fun dd hdd s₃ h1 h2 h3 h4 hP =>
              have hst := hstep dd (hl₂mem dd hdd) s₃ h1 h2 h3 h4 hP.1
              ⟨hst.1, le_trans hP.2 hst.2.1⟩)
            (true, rs) ⟨hRsound.1, le_refl _⟩
          have hRcap : rs.num_words < HASH_SIZE := lt_of_le_of_lt hP₂.2 hFcap
          -- the induction hypothesis gives W in the walk list of R
          have hWin : W ∈ walk rs.tbl := by
            have := hIH (DAWG_CHILD E.dawg i') word' q.1 q.2
              (used ||| maskComputed (y * E.board_width + x)) sk
              (path ++ [(y, x)]) (q :: ext'') W hpreq hskInv
              rfl hgood
              hW hmem hlen hfuel (by rw [hR]; exact hRfail) (by rw [hR]; exact hRcap)
            rwa [hR] at this
          -- membership is preserved by the remaining iterations
          have hP₃ := nbFold_pres E (fun ny nx s'' => find_words E fuel (DAWG_CHILD E.dawg i') word' ny nx (used ||| maskComputed (y * E.board_width + x)) s'') y x
            (fun acc => SInv E acc.2 ∧ W ∈ walk acc.2.tbl) l₂
            (fun dd hdd s₃ h1 h2 h3 h4 hP =>
              have hst := hstep dd (hl₂mem dd hdd) s₃ h1 h2 h3 h4 hP.1
              ⟨hst.1, by
                obtain ⟨ext2, hext2⟩ := hst.2.2
                rw [hext2]
                exact List.mem_append.2 (Or.inl hP.2)⟩)
            (true, rs) ⟨hRsound.1, hWin⟩
          exact hP₃.2
    -- dispatch on the accept guard
    unfold afterMatch at hnofail hcap ⊢
    by_cases hg : DAWG_EOW E.dawg i' = true ∧ E.min_legal ≤ word'.length
    · rw [if_pos hg] at hnofail hcap ⊢
      rcases hacc : acceptWord E word' s with ⟨b, s₁⟩
      rw [hacc] at hnofail hcap
      cases b with
      | false =>
        have h1 := acceptWord_false_iff E word' s hsf
        rw [hacc] at h1
        have h2 : s₁.failed = true := h1.1 rfl
        have h3 : s₁.failed = false := hnofail
        simp [h3] at h2
      | true =>
        have hgw : GoodWord E word' := by
          refine ⟨?_, ?_, hg.2⟩
          · exact dawgMem_iff.2 ⟨htr ▸ hine, by rw [htr]; exact hg.1⟩
          · exact ⟨path ++ [(y, x)], ⟨by simp, hnodup, hbounds, hchain⟩, hspell⟩
        have hSI₁ : SInv E s₁ := by
          have := (acceptWord_sound E word' s hSI hgw hwne).1
          rwa [hacc] at this
        exact hreach s₁ hSI₁ hnofail hcap
    · rw [if_neg hg] at hnofail hcap ⊢
      exact hreach s hSI hnofail hcap

/-- Completeness of the recursive search: if `W` extends the current word
along a remaining simple path starting at the tile being visited, `W` is in
the dictionary and long enough, and the call neither aborts nor overflows
the store, then `W` is stored by the time the call returns. -/
theorem fw_complete (E : Env) (h32 : E.board_width * E.board_height ≤ 32) :
    ∀ (fuel i : Nat) (word : List Nat) (y x used : Nat) (s : St)
      (path ext : List (Nat × Nat)) (W : List Nat),
      PathPre E path word i used y x → SInv E s →
      ext.head? = some (y, x) →
      GoodPath E (path ++ ext) →
      W = word ++ spell E ext →
      dawgMem E.dawg E.dsize W = true →
      E.min_legal ≤ W.length →
      ext.length < fuel →
      (find_words E fuel i word y x used s).2.failed = false →
      (find_words E fuel i word y x used s).2.num_words < HASH_SIZE →
      W ∈ walk (find_words E fuel i word y x used s).2.tbl := by
  intro fuel
  induction fuel with
  | zero =>
    intro i word y x used s path ext W _ _ _ _ _ _ _ hfuel _ _
    omega
  | succ fuel ih =>
    intro i word y x used s path ext W hpre hSI hhead hgood hW hmem hlen hfuel hnofail hcap
    obtain ⟨hnodup, hbounds, hchain, hlast, hspell, hused, hci, hxy⟩ := hpre
    cases ext with
    | nil => simp at hhead
    | cons p0 ext' =>
      have hp0 : p0 = (y, x) := by simpa using hhead
      subst hp0
      have hsf : s.failed = false := by
        by_contra hf
        have hf' : s.failed = true := by revert hf; cases s.failed <;> simp
        rw [fw_fail_frozen E (fuel + 1) i word y x used s hf'] at hnofail
        simp [hf'] at hnofail
      simp only [find_words] at hnofail hcap ⊢
      rw [if_neg (show ¬ s.failed = true by simp [hsf])] at hnofail hcap ⊢
      have hfresh : (y, x) ∉ path := by
        have hnd := hgood.2.1
        rw [List.nodup_append] at hnd
        exact fun hmem' => hnd.2.2 hmem' (by simp)
      have hmask0 : used &&& maskComputed (y * E.board_width + x) = 0 := by
        rw [hused]
        exact (usedOf_fresh h32 hbounds hxy).2 hfresh
      rw [if_neg (show ¬ used &&& maskComputed (y * E.board_width + x) ≠ 0 by
        rw [hmask0]; simp)] at hnofail hcap ⊢
      have hnodup' : (path ++ [(y, x)]).Nodup := by
        rw [List.nodup_append]
        exact ⟨hnodup, List.nodup_singleton _,
          fun a ha hb => by rw [List.mem_singleton] at hb; exact hfresh (hb ▸ ha)⟩
      have hbounds' : ∀ p ∈ path ++ [(y, x)], inBounds E p := by
        intro p hp
        rcases List.mem_append.1 hp with hp | hp
        · exact hbounds p hp
        · rw [List.mem_singleton] at hp; exact hp ▸ hxy
      have hchain' : (path ++ [(y, x)]).Chain' adjacent := by
        rw [List.chain'_append]
        refine ⟨hchain, List.chain'_singleton _, ?_⟩
        intro a ha b hb
        simp only [List.head?_cons, Option.mem_def, Option.some.injEq] at hb
        rw [Option.mem_def] at ha
        exact hb ▸ hlast a ha
      have husedq : used ||| maskComputed (y * E.board_width + x)
          = usedOf E (path ++ [(y, x)]) := by
        rw [usedOf_append, hused]
        rfl
      have hgood' : GoodPath E ((path ++ [(y, x)]) ++ ext') := by
        rw [List.append_assoc, List.singleton_append]
        exact hgood
      have hfuel' : ext'.length < fuel := by
        simp only [List.length_cons] at hfuel
        omega
      have hWd : W = (word ++ tileExp (E.dice (y * E.board_width + x))) ++ spell E ext' := by
        rw [hW]
        show word ++ spell E ((y, x) :: ext') = _
        have : spell E ((y, x) :: ext') = tileExp (tileAt E (y, x)) ++ spell E ext' := rfl
        rw [this, ← List.append_assoc]
        rfl
      have htrW : traceFrom E.dawg E.dsize 1 W ≠ 0 := (dawgMem_iff.1 hmem).1
      by_cases hlt : 65 ≤ E.dice (y * E.board_width + x)
      · rw [if_pos hlt] at hnofail hcap ⊢
        have hexp : tileExp (E.dice (y * E.board_width + x))
            = [E.dice (y * E.board_width + x)] := by
          unfold tileExp
          rw [if_pos hlt]
        have hWd' : W = (word ++ [E.dice (y * E.board_width + x)]) ++ spell E ext' := by
          rw [hWd, hexp]
        have htrw' : traceFrom E.dawg E.dsize 1
            (word ++ [E.dice (y * E.board_width + x)]) ≠ 0 := by
          cases hext' : ext' with
          | nil =>
            rw [hext'] at hWd'
            rw [show spell E [] = [] from rfl, List.append_nil] at hWd'
            rw [← hWd']
            exact htrW
          | cons q0 ext'' =>
            refine traceFrom_ne_zero_of_append E.dawg E.dsize (by simp)
              (spell_ne_nil E (show ext' ≠ [] by simp [hext'])) ?_
            rw [← hWd']
            exact htrW
        have hscan_ne : ¬ scanSibs E.dawg (E.dice (y * E.board_width + x)) E.dsize i = 0 := by
          rw [← trace_extend hci]
          exact htrw'
        rw [if_neg hscan_ne] at hnofail hcap ⊢
        exact afterMatch_complete E h32 fuel _ _ y x used s path ext' W
          hnodup' hbounds' hchain'
          (by rw [spell_append, hspell]
              congr 1
              show tileExp (tileAt E (y, x)) ++ [] = _
              rw [List.append_nil]
              exact hexp)
          husedq (trace_extend hci _) hscan_ne (by simp) hSI hsf hWd' hmem hlen hgood'
          hfuel' hnofail hcap
          (fun i₂ word₂ y₂ x₂ u₂ s₂ path₂ ext₂ W₂ => ih i₂ word₂ y₂ x₂ u₂ s₂ path₂ ext₂ W₂)
      · rw [if_neg hlt] at hnofail hcap ⊢
        have hexp : tileExp (E.dice (y * E.board_width + x))
            = [(g_special_dice.getD (E.dice (y * E.board_width + x) - 48) (0, 0)).1,
               (g_special_dice.getD (E.dice (y * E.board_width + x) - 48) (0, 0)).2] := by
          unfold tileExp
          rw [if_neg hlt]
        have hWd' : W = (word ++ [(g_special_dice.getD (E.dice (y * E.board_width + x) - 48) (0, 0)).1,
            (g_special_dice.getD (E.dice (y * E.board_width + x) - 48) (0, 0)).2]) ++ spell E ext' := by
          rw [hWd, hexp]
        have hsplit2 : word ++ [(g_special_dice.getD (E.dice (y * E.board_width + x) - 48) (0, 0)).1,
            (g_special_dice.getD (E.dice (y * E.board_width + x) - 48) (0, 0)).2]
            = (word ++ [(g_special_dice.getD (E.dice (y * E.board_width + x) - 48) (0, 0)).1])
              ++ [(g_special_dice.getD (E.dice (y * E.board_width + x) - 48) (0, 0)).2] := by
          simp
        have htrw2 : traceFrom E.dawg E.dsize 1
            (word ++ [(g_special_dice.getD (E.dice (y * E.board_width + x) - 48) (0, 0)).1,
              (g_special_dice.getD (E.dice (y * E.board_width + x) - 48) (0, 0)).2]) ≠ 0 := by
          cases hext' : ext' with
          | nil =>
            rw [hext'] at hWd'
            rw [show spell E [] = [] from rfl, List.append_nil] at hWd'
            rw [← hWd']
            exact htrW
          | cons q0 ext'' =>
            refine traceFrom_ne_zero_of_append E.dawg E.dsize (by simp)
              (spell_ne_nil E (show ext' ≠ [] by simp [hext'])) ?_
            rw [← hWd']
            exact htrW
        have htrw1 : traceFrom E.dawg E.dsize 1
            (word ++ [(g_special_dice.getD (E.dice (y * E.board_width + x) - 48) (0, 0)).1]) ≠ 0 := by
          refine traceFrom_ne_zero_of_append E.dawg E.dsize (by simp)
            (show [(g_special_dice.getD (E.dice (y * E.board_width + x) - 48) (0, 0)).2] ≠ []
              by simp) ?_
          rw [← hsplit2]
          exact htrw2
        have hj_ne : ¬ scanSibs E.dawg
            ((g_special_dice.getD (E.dice (y * E.board_width + x) - 48) (0, 0)).1)
            E.dsize i = 0 := by
          rw [← trace_extend hci]
          exact htrw1
        rw [if_neg hj_ne] at hnofail hcap ⊢
        have htr1 : traceFrom E.dawg E.dsize 1
            (word ++ [(g_special_dice.getD (E.dice (y * E.board_width + x) - 48) (0, 0)).1])
            = scanSibs E.dawg
              ((g_special_dice.getD (E.dice (y * E.board_width + x) - 48) (0, 0)).1)
              E.dsize i := trace_extend hci _
        have hci1 : ChainInv E
            (word ++ [(g_special_dice.getD (E.dice (y * E.board_width + x) - 48) (0, 0)).1])
            (DAWG_CHILD E.dawg (scanSibs E.dawg
              ((g_special_dice.getD (E.dice (y * E.board_width + x) - 48) (0, 0)).1)
              E.dsize i)) :=
          Or.inr ⟨by simp, htr1 ▸ hj_ne, by rw [htr1]⟩
        have htr2 : traceFrom E.dawg E.dsize 1
            ((word ++ [(g_special_dice.getD (E.dice (y * E.board_width + x) - 48) (0, 0)).1])
              ++ [(g_special_dice.getD (E.dice (y * E.board_width + x) - 48) (0, 0)).2])
            = scanSibs E.dawg
              ((g_special_dice.getD (E.dice (y * E.board_width + x) - 48) (0, 0)).2)
              E.dsize (DAWG_CHILD E.dawg (scanSibs E.dawg
                ((g_special_dice.getD (E.dice (y * E.board_width + x) - 48) (0, 0)).1)
                E.dsize i)) := trace_extend hci1 _
        have hk_ne : ¬ scanSibs E.dawg
            ((g_special_dice.getD (E.dice (y * E.board_width + x) - 48) (0, 0)).2)
            E.dsize (DAWG_CHILD E.dawg (scanSibs E.dawg
              ((g_special_dice.getD (E.dice (y * E.board_width + x) - 48) (0, 0)).1)
              E.dsize i)) = 0 := by
          rw [← htr2, ← hsplit2]
          exact htrw2
        rw [if_neg hk_ne] at hnofail hcap ⊢
        exact afterMatch_complete E h32 fuel _ _ y x used s path ext' W
          hnodup' hbounds' hchain'
          (by rw [spell_append, hspell]
              congr 1
              show tileExp (tileAt E (y, x)) ++ [] = _
              rw [List.append_nil]
              exact hexp)
          husedq (by rw [hsplit2]; exact htr2) hk_ne (by simp) hSI hsf hWd' hmem hlen hgood'
          hfuel' hnofail hcap
          (fun i₂ word₂ y₂ x₂ u₂ s₂ path₂ ext₂ W₂ => ih i₂ word₂ y₂ x₂ u₂ s₂ path₂ ext₂ W₂)

/-! ## The position loop and `find_all_words` -/

theorem pathPre_nil (E : Env) (y x : Nat) (h : inBounds E (y, x)) :
    PathPre E [] [] 1 0 y x := by
  refine ⟨List.nodup_nil, by simp, List.chain'_nil, by simp, rfl, rfl,
    Or.inl ⟨rfl, rfl⟩, h⟩

theorem mem_positions {E : Env} {p : Nat × Nat} :
    p ∈ positions E ↔ inBounds E p := by
  unfold positions inBounds
  simp only [List.mem_flatMap, List.mem_map, List.mem_range]
  constructor
  · rintro ⟨y, hy, x, hx, rfl⟩
    exact ⟨hy, hx⟩
  · rintro ⟨h1, h2⟩
    exact ⟨p.1, h1, p.2, h2, rfl⟩

theorem positions_length (E : Env) :
    (positions E).length = E.board_height * E.board_width := by
  unfold positions
  rw [List.length_flatMap]
  have h1 : (List.map (List.length ∘ fun y => List.map (fun x => (y, x))
      (List.range E.board_width)) (List.range E.board_height))
      = List.replicate E.board_height E.board_width := by
    rw [List.eq_replicate_iff]
    constructor
    · simp
    · intro b hb
      rw [List.mem_map] at hb
      obtain ⟨y, _, rfl⟩ := hb
      simp
  rw [h1, List.sum_replicate, smul_eq_mul]

/-- A simple in-bounds path has at most `width*height` tiles. -/
theorem path_length_le (E : Env) (path : List (Nat × Nat))
    (hnd : path.Nodup) (hb : ∀ p ∈ path, inBounds E p) :
    path.length ≤ E.board_width * E.board_height := by
  have hsub : path.toFinset ⊆ (positions E).toFinset := by
    intro a ha
    rw [List.mem_toFinset] at ha ⊢
    exact mem_positions.2 (hb a ha)
  have h1 := Finset.card_le_card hsub
  rw [List.toFinset_card_of_nodup hnd] at h1
  have h2 := (positions E).toFinset_card_le
  have h3 := positions_length E
  have h4 : E.board_height * E.board_width = E.board_width * E.board_height :=
    Nat.mul_comm _ _
  omega

theorem faw_loop_sound (E : Env) (h32 : E.board_width * E.board_height ≤ 32)
    (fuel : Nat) :
    ∀ (ps : List (Nat × Nat)) (s : St), (∀ p ∈ ps, inBounds E p) → SInv E s →
      SInv E (faw_loop E fuel ps s).2 ∧
      s.num_words ≤ (faw_loop E fuel ps s).2.num_words ∧
      ∃ ext, walk (faw_loop E fuel ps s).2.tbl = walk s.tbl ++ ext := by
  intro ps
  induction ps with
  | nil => intro s _ hSI; exact ⟨hSI, le_refl _, [], by simp [faw_loop]⟩
  | cons p ps' ih =>
    intro s hb hSI
    have hp : inBounds E p := hb p (by simp)
    have hstep := fw_sound E h32 fuel 1 [] p.1 p.2 0 s []
      (pathPre_nil E p.1 p.2 ⟨hp.1, hp.2⟩) hSI
    rw [show faw_loop E fuel (p :: ps') s = (match find_words E fuel 1 [] p.1 p.2 0 s with
      | (false, s₂) => (false, s₂)
      | (true, s₂) => faw_loop E fuel ps' s₂) from rfl]
    rcases hfw : find_words E fuel 1 [] p.1 p.2 0 s with ⟨b, s'⟩
    rw [hfw] at hstep
    cases b with
    | false => exact hstep
    | true =>
      obtain ⟨hA, hB, ext1, hC⟩ := hstep
      obtain ⟨hA', hB', ext2, hC'⟩ := ih s' (fun q hq => hb q (by simp [hq])) hA
      exact ⟨hA', le_trans hB hB', ext1 ++ ext2,
        by rw [hC', hC, List.append_assoc]⟩

theorem faw_loop_false_iff (E : Env) (fuel : Nat) :
    ∀ (ps : List (Nat × Nat)) (s : St),
      ((faw_loop E fuel ps s).1 = false ↔ (faw_loop E fuel ps s).2.failed = true) ∨
      s.failed = true := by
  intro ps
  induction ps with
  | nil =>
    intro s
    cases hs : s.failed with
    | true => exact Or.inr rfl
    | false => exact Or.inl (by simp [faw_loop, hs])
  | cons p ps' ih =>
    intro s
    cases hs : s.failed with
    | true => exact Or.inr rfl
    | false =>
      left
      rw [show faw_loop E fuel (p :: ps') s = (match find_words E fuel 1 [] p.1 p.2 0 s with
        | (false, s₂) => (false, s₂)
        | (true, s₂) => faw_loop E fuel ps' s₂) from rfl]
      rcases hfw : find_words E fuel 1 [] p.1 p.2 0 s with ⟨b, s'⟩
      have hiff := fw_false_iff E fuel 1 [] p.1 p.2 0 s
      rw [hfw] at hiff
      cases b with
      | false => exact ⟨fun _ => hiff.1 rfl, fun _ => rfl⟩
      | true =>
        have hsf' : s'.failed = false := by
          cases hsf' : s'.failed with
          | false => rfl
          | true => exact absurd (hiff.2 hsf') (by simp)
        rcases ih s' with h | h
        · exact h
        · rw [hsf'] at h
          cases h

/-- Completeness of the position loop: a legitimate word whose path starts
at a position of the list ends up stored, provided the loop neither aborts
nor overflows. -/
theorem faw_loop_complete (E : Env) (h32 : E.board_width * E.board_height ≤ 32)
    (fuel : Nat) (wpath : List (Nat × Nat)) (W : List Nat) (p₀ : Nat × Nat)
    (hgood : GoodPath E wpath) (hhead : wpath.head? = some p₀)
    (hW : W = spell E wpath)
    (hmem : dawgMem E.dawg E.dsize W = true)
    (hlen : E.min_legal ≤ W.length)
    (hfuel : wpath.length < fuel) :
    ∀ (l₁ l₂ : List (Nat × Nat)) (s : St),
      (∀ p ∈ l₁ ++ p₀ :: l₂, inBounds E p) → SInv E s →
      (faw_loop E fuel (l₁ ++ p₀ :: l₂) s).2.failed = false →
      (faw_loop E fuel (l₁ ++ p₀ :: l₂) s).2.num_words < HASH_SIZE →
      W ∈ walk (faw_loop E fuel (l₁ ++ p₀ :: l₂) s).2.tbl := by
  intro l₁
  induction l₁ with
  | nil =>
    intro l₂ s hb hSI hnofail hcap
    rw [List.nil_append] at hb hnofail hcap ⊢
    rw [show (faw_loop E fuel (p₀ :: l₂) s)
        = (match find_words E fuel 1 [] p₀.1 p₀.2 0 s with
          | (false, s₂) => (false, s₂)
          | (true, s₂) => faw_loop E fuel l₂ s₂) from rfl] at hnofail hcap ⊢
    have hp₀ : inBounds E p₀ := hb p₀ (by simp)
    have hpre := pathPre_nil E p₀.1 p₀.2 ⟨hp₀.1, hp₀.2⟩
    have hiff := fw_false_iff E fuel 1 [] p₀.1 p₀.2 0 s
    have hstep := fw_sound E h32 fuel 1 [] p₀.1 p₀.2 0 s [] hpre hSI
    rcases hfw : find_words E fuel 1 [] p₀.1 p₀.2 0 s with ⟨b, s'⟩
    rw [hfw] at hiff hstep hnofail hcap
    cases b with
    | false =>
      have := hiff.1 rfl
      simp only at this hnofail
      rw [this] at hnofail
      cases hnofail
    | true =>
      have hsf' : s'.failed = false := by
        cases hsf' : s'.failed with
        | false => rfl
        | true => exact absurd (hiff.2 hsf') (by simp)
      obtain ⟨hA, _, _⟩ := hstep
      have hloop := faw_loop_sound E h32 fuel l₂ s'
        (fun q hq => hb q (by simp [hq])) hA
      have hcap' : s'.num_words < HASH_SIZE := lt_of_le_of_lt hloop.2.1 hcap
      have hWin : W ∈ walk s'.tbl := by
        have := fw_complete E h32 fuel 1 [] p₀.1 p₀.2 0 s [] wpath W hpre hSI
          (by rw [hhead]) (by rw [List.nil_append]; exact hgood)
          (by rw [hW]; rfl) hmem hlen hfuel
          (by rw [hfw]; exact hsf') (by rw [hfw]; exact hcap')
        rwa [hfw] at this
      obtain ⟨_, _, ext, hext⟩ := hloop
      rw [hext]
      exact List.mem_append.2 (Or.inl hWin)
  | cons p l₁' ih =>
    intro l₂ s hb hSI hnofail hcap
    rw [List.cons_append] at hb hnofail hcap ⊢
    rw [show (faw_loop E fuel (p :: (l₁' ++ p₀ :: l₂)) s)
        = (match find_words E fuel 1 [] p.1 p.2 0 s with
          | (false, s₂) => (false, s₂)
          | (true, s₂) => faw_loop E fuel (l₁' ++ p₀ :: l₂) s₂) from rfl] at hnofail hcap ⊢
    have hp : inBounds E p := hb p (by simp)
    have hiff := fw_false_iff E fuel 1 [] p.1 p.2 0 s
    have hstep := fw_sound E h32 fuel 1 [] p.1 p.2 0 s []
      (pathPre_nil E p.1 p.2 ⟨hp.1, hp.2⟩) hSI
    rcases hfw : find_words E fuel 1 [] p.1 p.2 0 s with ⟨b, s'⟩
    rw [hfw] at hiff hstep hnofail hcap
    cases b with
    | false =>
      have := hiff.1 rfl
      simp only at this hnofail
      rw [this] at hnofail
      cases hnofail
    | true =>
      exact ih l₂ s' (fun q hq => hb q (by simp [hq])) hstep.1 hnofail hcap

/-- Resetting a table that satisfies the invariant yields the empty table:
`used_indices` names every occupied slot, so clearing them clears all. -/
theorem reset_of_tableInv {t : HashTable} (h : TableInv t) :
    reset_hash_table t = emptyHT := by
  unfold reset_hash_table emptyHT
  congr 1
  funext j
  by_cases hj : j ∈ t.used_indices
  · rw [if_pos hj]
  · rw [if_neg hj]
    by_cases hlt : j < HASH_SIZE
    · by_contra hne
      exact hj (h.occ_mem j hlt hne)
    · exact h.hi_empty j (Nat.le_of_not_lt hlt)

/-- The final state of `find_all_words` is the final state of its position
loop: the post-checks only affect the returned boolean. -/
theorem find_all_words_snd (E : Env) (t₀ : HashTable) :
    (find_all_words E t₀).2 =
      (faw_loop E (E.board_width * E.board_height + 2) (positions E)
        { tbl := reset_hash_table t₀, num_words := 0, longest := 0,
          score := 0, failed := false }).2 := by
  simp only [find_all_words]
  rcases hL : faw_loop E (E.board_width * E.board_height + 2) (positions E)
      { tbl := reset_hash_table t₀, num_words := 0, longest := 0,
        score := 0, failed := false } with ⟨b, s⟩
  cases b
  · rfl
  · dsimp only
    split_ifs <;> rfl

/-- The full specification of `find_all_words` on boards of at most 32
tiles: when the run neither aborts nor fills the table, the stored words
are exactly the legitimate words, each stored once. -/
theorem find_all_words_walk (E : Env) (t₀ : HashTable)
    (h32 : E.board_width * E.board_height ≤ 32) (hTI : TableInv t₀)
    (hnofail : (find_all_words E t₀).2.failed = false)
    (hcap : (find_all_words E t₀).2.num_words < HASH_SIZE) :
    (∀ W, W ∈ walk (find_all_words E t₀).2.tbl ↔ GoodWord E W) ∧
    (walk (find_all_words E t₀).2.tbl).Nodup := by
  have hreset := reset_of_tableInv hTI
  have hSI : SInv E { tbl := reset_hash_table t₀, num_words := 0,
                      longest := 0, score := 0, failed := false } := by
    rw [hreset]
    exact ⟨tableInv_empty, rfl, fun w hw => nomatch hw⟩
  have hsnd := find_all_words_snd E t₀
  rw [hsnd] at hnofail hcap ⊢
  have hb : ∀ p ∈ positions E, inBounds E p := fun p hp => mem_positions.1 hp
  have hloop := faw_loop_sound E h32 (E.board_width * E.board_height + 2)
    (positions E) _ hb hSI
  refine ⟨fun W => ⟨fun hW => hloop.1.sound W hW, fun hGW => ?_⟩,
    walk_nodup hloop.1.tinv⟩
  obtain ⟨hmem, ⟨path, hgood, hspell⟩, hlen⟩ := hGW
  obtain ⟨hne, hnd, hbp, hch⟩ := hgood
  rcases path with _ | ⟨p₀, rest⟩
  · exact absurd rfl hne
  have hp₀ : p₀ ∈ positions E := mem_positions.2 (hbp p₀ (by simp))
  obtain ⟨l₁, l₂, hsplit⟩ := List.append_of_mem hp₀
  rw [hsplit] at hnofail hcap ⊢
  exact faw_loop_complete E h32 (E.board_width * E.board_height + 2)
    (p₀ :: rest) W p₀ ⟨hne, hnd, hbp, hch⟩ rfl hspell.symm hmem hlen
    (by have := path_length_le E (p₀ :: rest) hnd hbp; omega)
    l₁ l₂ _ (by rw [← hsplit]; exact hb) hSI hnofail hcap

/-- The word a path spells is at most twice as long as the path: every
tile expansion has one or two characters. -/
theorem tileExp_length_le (c : Nat) : (tileExp c).length ≤ 2 := by
  unfold tileExp
  split_ifs <;> simp

theorem spell_length_le (E : Env) : ∀ path : List (Nat × Nat),
    (spell E path).length ≤ 2 * path.length := by
  intro path
  induction path with
  | nil => simp [spell]
  | cons p rest ih =>
    show (tileExp (tileAt E p) ++ spell E rest).length ≤ 2 * (rest.length + 1)
    rw [List.length_append]
    have := tileExp_length_le (tileAt E p)
    omega

/-- **C1** (amended). On boards of at most 32 tiles, when the run neither
trips an upper bound nor leaves the regime of the C code's fixed buffers —
at most `MAX_WORDS` stored words, and every spellable stem alive in the
DAWG at most `MAX_WORD_LEN` characters (so `g_word` and the 17-byte hash
slots are never overrun) — the list returned by `restore_game` contains
exactly the dictionary words spellable by a simple adjacent path whose
tile expansions concatenate to the word, with no duplicates. -/
theorem claim_C1_restore_game_exact (score_counts : Nat → Nat)
    (width height : Nat) (dice : Nat → Nat) (dawg : Nat → Nat) (dsize : Nat)
    (t₀ : HashTable) (h32 : width * height ≤ 32) (hTI : TableInv t₀)
    (hnofail : (find_all_words
      (restoreEnv score_counts width height dice dawg dsize) t₀).2.failed = false)
    (hcap : (find_all_words
      (restoreEnv score_counts width height dice dawg dsize) t₀).2.num_words ≤ MAX_WORDS)
    (hstem : ∀ W : List Nat,
      Spellable (restoreEnv score_counts width height dice dawg dsize) W →
      traceFrom dawg dsize 1 W ≠ 0 → W.length ≤ MAX_WORD_LEN) :
    (∀ W, W ∈ restore_game score_counts width height dice dawg dsize t₀ ↔
      dawgMem dawg dsize W = true ∧
      Spellable (restoreEnv score_counts width height dice dawg dsize) W) ∧
    (restore_game score_counts width height dice dawg dsize t₀).Nodup := by
  have hcap' : (find_all_words
      (restoreEnv score_counts width height dice dawg dsize) t₀).2.num_words
        < HASH_SIZE := by
    unfold MAX_WORDS at hcap
    unfold HASH_SIZE
    omega
  have h := find_all_words_walk
    (restoreEnv score_counts width height dice dawg dsize) t₀ h32 hTI hnofail hcap'
  refine ⟨fun W => ⟨fun hW => ?_,
    fun hGW => (h.1 W).2 ⟨hGW.1, hGW.2, Nat.zero_le _⟩⟩, h.2⟩
  have hg := (h.1 W).1 hW
  exact ⟨hg.1, hg.2.1⟩

/-- A concrete run of the amended C1: on the 2×1 board `AT` with the
dictionary `{AT}`, `restore_game` reports `AT`. -/
theorem claim_C1_witness :
    (2 * 1 ≤ 32) ∧ TableInv emptyHT ∧
    [65, 84] ∈ restore_game (fun _ => 1) 2 1
      (fun p => if p = 0 then 65 else 84) dawgAT 3 emptyHT := by
  have h := claim_C1_restore_game_exact (fun _ => 1) 2 1
    (fun p => if p = 0 then 65 else 84) dawgAT 3 emptyHT (by norm_num)
    tableInv_empty (by decide) (by decide)
    (by
      intro W hsp _
      obtain ⟨path, hgood, hspell⟩ := hsp
      have h1 := path_length_le
        (restoreEnv (fun _ => 1) 2 1 (fun p => if p = 0 then 65 else 84) dawgAT 3)
        path hgood.2.1 hgood.2.2.1
      have h2 := spell_length_le
        (restoreEnv (fun _ => 1) 2 1 (fun p => if p = 0 then 65 else 84) dawgAT 3) path
      rw [hspell] at h2
      have h3 : (restoreEnv (fun _ => 1) 2 1
            (fun p => if p = 0 then 65 else 84) dawgAT 3).board_width
          * (restoreEnv (fun _ => 1) 2 1
            (fun p => if p = 0 then 65 else 84) dawgAT 3).board_height = 2 := rfl
      unfold MAX_WORD_LEN
      omega)
  refine ⟨by norm_num, tableInv_empty, ?_⟩
  exact (h.1 [65, 84]).2 ⟨by decide,
    ⟨[(0, 0), (0, 1)], ⟨by decide, by decide, by decide,
      by simp only [List.chain'_cons, List.chain'_singleton, and_true]; decide⟩,
      by decide⟩⟩

/-- The unamended C1 is false: on a 33-tile (3×11) board the word
`ABCDEFGHIJKL` is in the dictionary and spellable by the simple path
`pathCE`, yet `restore_game` omits it — the mask of tile 32 is computed in
32-bit arithmetic and collides with the mask of tile 0. -/
theorem claim_C1_counterexample :
    dawgMem dawgCE 13 wordCE = true ∧
    GoodPath envCE pathCE ∧ spell envCE pathCE = wordCE ∧
    wordCE ∉ restore_game (fun _ => 1) 11 3 diceCE dawgCE 13 emptyHT := by
  refine ⟨by decide, ⟨by decide, by decide, by decide,
    by simp only [pathCE, List.chain'_cons, List.chain'_singleton, and_true]; decide⟩,
    by decide, ?_⟩
  decide

/-- **C2.** The current variants expand the digit tiles through
`g_special_dice` exactly as specified, but `part_001`'s `switch` has no
`break`s: every digit expands to the pair of its last case, `('H','E')`,
so the claimed mapping fails there for `'0'`..`'4'` (and holds for `'5'`
only by accident). -/
theorem claim_C2_digit_expansions :
    (tileExp 48 = [95, 95] ∧ tileExp 49 = [81, 85] ∧ tileExp 50 = [73, 78] ∧
     tileExp 51 = [84, 72] ∧ tileExp 52 = [69, 82] ∧ tileExp 53 = [72, 69]) ∧
    (switchExpansion 48 = some (72, 69) ∧ switchExpansion 49 = some (72, 69) ∧
     switchExpansion 50 = some (72, 69) ∧ switchExpansion 51 = some (72, 69) ∧
     switchExpansion 52 = some (72, 69) ∧ switchExpansion 53 = some (72, 69)) ∧
    switchExpansion 49 ≠ some (81, 85) := by
  decide

/-- **C4.** The used-tile mask is correct only below bit 31: the 32-bit
shift makes bit 31 sign-extend to `0xFFFFFFFF80000000` and makes bit 32
onward alias bit `pos % 32`, so on 33..36-tile boards distinct positions
share a mask. -/
theorem claim_C4_mask_32bit :
    ((List.range 31).all fun pos => maskComputed pos == specMask pos) = true ∧
    maskComputed 31 = 0xFFFFFFFF80000000 ∧ maskComputed 31 ≠ specMask 31 ∧
    maskComputed 33 = maskComputed 1 ∧ maskComputed 36 = maskComputed 4 ∧
    specMask 33 ≠ specMask 1 := by
  decide

/-! ## The outer loop's return discipline (C5) -/

theorem fill_go_false_all (accept : Nat → Bool) :
    ∀ (rem count : Nat), (∀ t, accept t = false) → fill_go accept count rem = -1 := by
  intro rem
  induction rem with
  | zero => intro count _; rfl
  | succ rem ih =>
    intro count hall
    simp only [fill_go, hall (count + 1)]
    exact ih (count + 1) hall

theorem fill_go_cases (accept : Nat → Bool) :
    ∀ (rem count : Nat), fill_go accept count rem = -1 ∨
      ∃ t : Nat, fill_go accept count rem = (t : Int) := by
  intro rem
  induction rem with
  | zero => intro count; exact Or.inl rfl
  | succ rem ih =>
    intro count
    simp only [fill_go]
    by_cases ha : accept (count + 1) = true
    · exact Or.inr ⟨count + 1, by rw [if_pos ha]⟩
    · rw [if_neg ha]
      exact ih (count + 1)

theorem fill_go_some_spec (accept : Nat → Bool) :
    ∀ (rem count t : Nat), fill_go accept count rem = (t : Int) →
      count < t ∧ t ≤ count + rem ∧ accept t = true := by
  intro rem
  induction rem with
  | zero =>
    intro count t h
    exfalso
    simp only [fill_go] at h
    omega
  | succ rem ih =>
    intro count t h
    simp only [fill_go] at h
    by_cases ha : accept (count + 1) = true
    · rw [if_pos ha] at h
      have ht : count + 1 = t := Nat.cast_inj.mp h
      exact ⟨by omega, by omega, ht ▸ ha⟩
    · rw [if_neg ha] at h
      obtain ⟨h1, h2, h3⟩ := ih (count + 1) t h
      exact ⟨by omega, by omega, h3⟩

/-- **C5.** The current `get_words` returns no result on exhaustion and a
try count `1 ≤ t ≤ max_tries` with an accepted board otherwise; but
`part_001`'s `fill_board` returns `max_tries + 1` after an exhausted loop
and its `get_words` never tests the count, so that variant reports a
result for a board no one accepted. -/
theorem claim_C5_outer_loop :
    (∀ (accept : Nat → Bool) (max_tries : Nat), (∀ t, accept t = false) →
      get_words_tries accept max_tries = none) ∧
    (∀ (accept : Nat → Bool) (max_tries : Nat),
      get_words_tries accept max_tries = none ∨
      ∃ t, get_words_tries accept max_tries = some t ∧
        1 ≤ t ∧ t ≤ max_tries ∧ accept t = true) ∧
    get_words_tries_001 (fun _ => false) 3 = some 4 := by
  refine ⟨?_, ?_, by decide⟩
  · intro accept max_tries hall
    unfold get_words_tries fill_board
    rw [fill_go_false_all accept max_tries 0 hall]
    rfl
  · intro accept max_tries
    rcases fill_go_cases accept max_tries 0 with h | ⟨t, ht⟩
    · left
      unfold get_words_tries fill_board
      rw [h]
      rfl
    · right
      obtain ⟨h1, h2, h3⟩ := fill_go_some_spec accept max_tries 0 t ht
      refine ⟨t, ?_, by omega, by omega, h3⟩
      unfold get_words_tries fill_board
      rw [ht, if_neg (by omega), Int.toNat_natCast]

/-- A concrete run of C5's proved part: with every board rejected, three
tries yield no result; with the second board accepted, try count 2. -/
theorem claim_C5_witness :
    get_words_tries (fun _ => false) 3 = none ∧
    (get_words_tries (fun t => t == 2) 3 = none ∨
      ∃ t, get_words_tries (fun t => t == 2) 3 = some t ∧
        1 ≤ t ∧ t ≤ 3 ∧ (fun t => t == 2) t = true) :=
  ⟨claim_C5_outer_loop.1 (fun _ => false) 3 (fun _ => rfl),
   claim_C5_outer_loop.2.1 (fun t => t == 2) 3⟩

/-- **C3** (amended to the current variant). `find_all_words` returns true
iff the search never tripped an upper bound (the fail flag is clear) and
the final counters pass all four post-checks.  The `part_001` variant
omits the `max_longest` post-check and violates the claim. -/
theorem claim_C3_evaluate_iff (E : Env) (t₀ : HashTable) :
    (find_all_words E t₀).1 = true ↔
      ((find_all_words E t₀).2.failed = false ∧
       E.min_words ≤ (find_all_words E t₀).2.num_words ∧
       E.min_score ≤ (find_all_words E t₀).2.score ∧
       E.min_longest ≤ (find_all_words E t₀).2.longest ∧
       (find_all_words E t₀).2.longest ≤ E.max_longest) := by
  have hiff := faw_loop_false_iff E (E.board_width * E.board_height + 2) (positions E)
    { tbl := reset_hash_table t₀, num_words := 0,
      longest := 0, score := 0, failed := false }
  simp only [find_all_words]
  rcases hL : faw_loop E (E.board_width * E.board_height + 2) (positions E)
      { tbl := reset_hash_table t₀, num_words := 0,
        longest := 0, score := 0, failed := false } with ⟨b, s⟩
  rw [hL] at hiff
  rcases hiff with hiff | hfail
  · cases b with
    | false =>
      have hf : s.failed = true := hiff.1 rfl
      dsimp only
      simp [hf]
    | true =>
      have hf : s.failed = false := by
        cases hsf : s.failed
        · rfl
        · exact absurd (hiff.2 hsf) (by simp)
      dsimp only
      split_ifs with h1 h2 h3 h4
      · exact ⟨fun h => absurd h (by simp),
          fun h => by dsimp only at h; exact absurd h.2.1 (by omega)⟩
      · exact ⟨fun h => absurd h (by simp),
          fun h => by dsimp only at h; exact absurd h.2.2.1 (by omega)⟩
      · exact ⟨fun h => absurd h (by simp),
          fun h => by dsimp only at h; exact absurd h.2.2.2.1 (by omega)⟩
      · exact ⟨fun h => absurd h (by simp),
          fun h => by dsimp only at h; exact absurd h.2.2.2.2 (by omega)⟩
      · refine ⟨fun _ => ?_, fun _ => rfl⟩
        dsimp only
        exact ⟨hf, by omega, by omega, by omega, by omega⟩
  · simp at hfail

/-- The `part_001` evaluator accepts a board whose longest word exceeds
`max_longest`: with dictionary `{CAT}` on the 3×1 board `CAT` and
`max_longest = 2`, it returns true with `longest = 3`. -/
theorem claim_C3_counterexample :
    (find_all_words001 envCAT).1 = true ∧
    envCAT.max_longest < (find_all_words001 envCAT).2.longest := by
  constructor <;> decide

/-- **C6.** Once the fail flag is set the search is frozen: a call entered
with the flag set returns `(false, s)` with the whole state (table and
counters) untouched, and any call whose final state carries the flag
reports abort, so enclosing neighbour iterations and the position loop do
no further work. -/
theorem claim_C6_fail_flag_frozen (E : Env) (fuel i : Nat) (word : List Nat)
    (y x used : Nat) (s : St) (hs : s.failed = true) :
    find_words E fuel i word y x used s = (false, s) ∧
    (∀ (fuel' i' : Nat) (word' : List Nat) (y' x' used' : Nat) (s' : St),
      (find_words E fuel' i' word' y' x' used' s').2.failed = true →
      (find_words E fuel' i' word' y' x' used' s').1 = false) :=
  ⟨fw_fail_frozen E fuel i word y x used s hs,
   fun fuel' i' word' y' x' used' s' hf =>
     (fw_false_iff E fuel' i' word' y' x' used' s').2 hf⟩

/-- C6 at a concrete failed state: the search returns immediately,
reporting abort, with the state unchanged. -/
def failedSt : St :=
  { tbl := emptyHT, num_words := 1, longest := 2, score := 1, failed := true }

theorem claim_C6_witness :
    find_words envAT0 3 1 [] 0 0 0 failedSt = (false, failedSt) :=
  (claim_C6_fail_flag_frozen envAT0 3 1 [] 0 0 0 failedSt rfl).1

/-- **C7** (amended). `read_dawg` fails on an unopenable file and on a file
too short for the 4-byte header, and otherwise succeeds with the file's
32-bit words minus the header: the declared element count is read but
never validated, so no format error is ever raised. -/
theorem claim_C7_read_dawg_errors :
    read_dawg none = .error .cannotOpen ∧
    (∀ bytes : List Nat, bytes.length < 4 →
      read_dawg (some bytes) = .error .cannotGetSize) ∧
    (∀ bytes : List Nat, 4 ≤ bytes.length →
      read_dawg (some bytes) = .ok ((leWords bytes).drop 1)) := by
  refine ⟨rfl, ?_, ?_⟩
  · intro bytes h
    simp only [read_dawg]
    rw [if_pos h]
  · intro bytes h
    simp only [read_dawg]
    rw [if_neg (by omega)]

/-- C7 at concrete files: a 3-byte file fails the header read, an 8-byte
file yields its one node word. -/
theorem claim_C7_witness :
    read_dawg (some [1, 2, 3]) = .error .cannotGetSize ∧
    read_dawg (some [100, 0, 0, 0, 9, 3, 0, 0]) = .ok [777] := by
  constructor
  · exact claim_C7_read_dawg_errors.2.1 [1, 2, 3] (by norm_num)
  · exact (claim_C7_read_dawg_errors.2.2 [100, 0, 0, 0, 9, 3, 0, 0] (by norm_num)).trans rfl

/-- The unamended C7 is false: this file's header declares 100 elements
but only one node word follows, yet `read_dawg` succeeds instead of
raising a format error. -/
theorem claim_C7_counterexample :
    (leWords [100, 0, 0, 0, 9, 3, 0, 0]).headD 0 = 100 ∧
    ((leWords [100, 0, 0, 0, 9, 3, 0, 0]).drop 1).length = 1 ∧
    read_dawg (some [100, 0, 0, 0, 9, 3, 0, 0]) = .ok [777] :=
  ⟨rfl, rfl, rfl⟩

/-- **C8.** The prefilter is monotone in the two constraint fields it
reads: a board rejected under `(min_words, min_longest)` stays rejected
under any pointwise larger pair. -/
theorem claim_C8_prefilter_monotone (dice : List Nat) (mw ml mw' ml' : Nat)
    (hw : mw ≤ mw') (hl : ml ≤ ml')
    (hfalse : board_looks_promising dice mw ml = false) :
    board_looks_promising dice mw' ml' = false := by
  unfold board_looks_promising at hfalse ⊢
  dsimp only at hfalse ⊢
  cases hany : dice.any (fun c => c == 83 || c == 68 || c == 71) <;>
    rw [hany] at hfalse <;>
    simp only [Bool.not_true, Bool.not_false, Bool.and_true, Bool.and_false]
      at hfalse ⊢ <;>
    split_ifs at hfalse ⊢ <;>
      first
        | rfl
        | (exfalso
           simp only [Bool.and_eq_true, Bool.or_eq_true, decide_eq_true_eq] at *
           omega)

/-- C8 at a concrete board: the all-consonant board `T` is rejected under
the loosest constraints, hence also under `(300, 20)`. -/
theorem claim_C8_witness :
    board_looks_promising [84] 300 20 = false :=
  claim_C8_prefilter_monotone [84] 0 0 300 20 (Nat.zero_le _) (Nat.zero_le _)
    (by decide)

/-! ## The sentinel index 0 is never dereferenced (C9)

The guarded accessor pattern is captured by an agreement argument: two
node arrays that agree at every non-zero index drive the whole evaluation
to the same result, so the value at index 0 is never read. -/

theorem scanSibs_agree {d1 d2 : Nat → Nat} (h : ∀ j, j ≠ 0 → d1 j = d2 j)
    (sought : Nat) : ∀ (fuel i : Nat),
      scanSibs d1 sought fuel i = scanSibs d2 sought fuel i := by
  intro fuel
  induction fuel with
  | zero => intro i; rfl
  | succ fuel ih =>
    intro i
    by_cases h0 : i = 0
    · simp [scanSibs, h0]
    · have hd := h i h0
      simp only [scanSibs, if_neg h0]
      unfold DAWG_LETTER DAWG_NEXT DAWG_EOL
      rw [hd]
      by_cases hl : d2 i % 256 = sought
      · rw [if_pos hl, if_pos hl]
      · rw [if_neg hl, if_neg hl, ih]

theorem nbAll_congr (E : Env) (go1 go2 : Nat → Nat → St → Bool × St)
    (hgo : ∀ ny nx s, go1 ny nx s = go2 ny nx s) (y x : Nat) :
    ∀ acc, nbAll E go1 y x acc = nbAll E go2 y x acc := by
  unfold nbAll
  suffices hall : ∀ (l : List (Int × Int)) (acc : Bool × St),
      l.foldl (fun a dd => nbStep E go1 ((y : Int) + dd.1) ((x : Int) + dd.2) a) acc
        = l.foldl (fun a dd => nbStep E go2 ((y : Int) + dd.1) ((x : Int) + dd.2) a) acc by
    intro acc
    exact hall g_deltas acc
  intro l
  induction l with
  | nil => intro acc; rfl
  | cons dd l ih =>
    intro acc
    have hstep : nbStep E go1 ((y : Int) + dd.1) ((x : Int) + dd.2) acc
        = nbStep E go2 ((y : Int) + dd.1) ((x : Int) + dd.2) acc := by
      rcases acc with ⟨b, s⟩
      cases b
      · rfl
      · simp only [nbStep]
        split_ifs with hb
        · exact hgo _ _ _
        · rfl
    simp only [List.foldl_cons, hstep, ih]

theorem acceptWord_update_dawg (E : Env) (d2 : Nat → Nat) (word : List Nat) (s : St) :
    acceptWord { E with dawg := d2 } word s = acceptWord E word s := rfl

theorem nbAll_update_dawg (E : Env) (d2 : Nat → Nat) (go : Nat → Nat → St → Bool × St)
    (y x : Nat) (acc : Bool × St) :
    nbAll { E with dawg := d2 } go y x acc = nbAll E go y x acc := rfl

theorem afterMatch_agree (E : Env) (d2 : Nat → Nat)
    (h : ∀ j, j ≠ 0 → E.dawg j = d2 j)
    (go1 go2 : Nat → List Nat → Nat → Nat → Nat → St → Bool × St)
    (hgo : ∀ i w ny nx u s, go1 i w ny nx u s = go2 i w ny nx u s)
    (i : Nat) (hi : i ≠ 0) (word : List Nat) (y x used : Nat) (s : St) :
    afterMatch E go1 i word y x used s
      = afterMatch { E with dawg := d2 } go2 i word y x used s := by
  have hEOW : DAWG_EOW d2 i = DAWG_EOW E.dawg i := by
    unfold DAWG_EOW; rw [h i hi]
  have hCH : DAWG_CHILD d2 i = DAWG_CHILD E.dawg i := by
    unfold DAWG_CHILD; rw [h i hi]
  simp only [afterMatch]
  simp only [hEOW, hCH, acceptWord_update_dawg, nbAll_update_dawg]
  rcases hr : (if DAWG_EOW E.dawg i ∧ E.min_legal ≤ word.length
      then acceptWord E word s else (true, s)) with ⟨b, s'⟩
  cases b
  · rfl
  · exact nbAll_congr E _ _ (fun ny nx s'' => hgo _ _ _ _ _ _) y x (true, s')

theorem fw_agree (E : Env) (d2 : Nat → Nat) (h : ∀ j, j ≠ 0 → E.dawg j = d2 j) :
    ∀ (fuel i : Nat) (word : List Nat) (y x used : Nat) (s : St),
      find_words E fuel i word y x used s
        = find_words { E with dawg := d2 } fuel i word y x used s := by
  intro fuel
  induction fuel with
  | zero => intro i word y x used s; rfl
  | succ fuel ih =>
    intro i word y x used s
    simp only [find_words]
    by_cases hf : s.failed = true
    · rw [if_pos hf, if_pos hf]
    · rw [if_neg hf, if_neg hf]
      by_cases hm : used &&& maskComputed (y * E.board_width + x) ≠ 0
      · rw [if_pos hm, if_pos hm]
      · rw [if_neg hm, if_neg hm]
        by_cases hs : 65 ≤ E.dice (y * E.board_width + x)
        · rw [if_pos hs, if_pos hs, scanSibs_agree h]
          by_cases hi' : scanSibs d2 (E.dice (y * E.board_width + x)) E.dsize i = 0
          · rw [if_pos hi', if_pos hi']
          · rw [if_neg hi', if_neg hi']
            exact afterMatch_agree E d2 h (find_words E fuel)
              (find_words { E with dawg := d2 } fuel)
              (fun i₂ w₂ ny nx u₂ s₂ => ih i₂ w₂ ny nx u₂ s₂) _ hi' _ y x used s
        · rw [if_neg hs, if_neg hs, scanSibs_agree h]
          by_cases hj : scanSibs d2
              ((g_special_dice.getD (E.dice (y * E.board_width + x) - 48) (0, 0)).1)
              E.dsize i = 0
          · rw [if_pos hj, if_pos hj]
          · rw [if_neg hj, if_neg hj]
            rw [show DAWG_CHILD E.dawg (scanSibs d2
                ((g_special_dice.getD (E.dice (y * E.board_width + x) - 48) (0, 0)).1)
                E.dsize i) = DAWG_CHILD d2 (scanSibs d2
                ((g_special_dice.getD (E.dice (y * E.board_width + x) - 48) (0, 0)).1)
                E.dsize i) from by unfold DAWG_CHILD; rw [h _ hj]]
            rw [scanSibs_agree h]
            by_cases hk : scanSibs d2
                ((g_special_dice.getD (E.dice (y * E.board_width + x) - 48) (0, 0)).2)
                E.dsize (DAWG_CHILD d2 (scanSibs d2
                  ((g_special_dice.getD (E.dice (y * E.board_width + x) - 48) (0, 0)).1)
                  E.dsize i)) = 0
            · rw [if_pos hk, if_pos hk]
            · rw [if_neg hk, if_neg hk]
              exact afterMatch_agree E d2 h (find_words E fuel)
                (find_words { E with dawg := d2 } fuel)
                (fun i₂ w₂ ny nx u₂ s₂ => ih i₂ w₂ ny nx u₂ s₂) _ hk _ y x used s

theorem faw_loop_agree (E : Env) (d2 : Nat → Nat)
    (h : ∀ j, j ≠ 0 → E.dawg j = d2 j) (fuel : Nat) :
    ∀ (ps : List (Nat × Nat)) (s : St),
      faw_loop E fuel ps s = faw_loop { E with dawg := d2 } fuel ps s := by
  intro ps
  induction ps with
  | nil => intro s; rfl
  | cons p ps' ih =>
    intro s
    show (match find_words E fuel 1 [] p.1 p.2 0 s with
      | (false, s') => (false, s')
      | (true, s') => faw_loop E fuel ps' s')
      = (match find_words { E with dawg := d2 } fuel 1 [] p.1 p.2 0 s with
      | (false, s') => (false, s')
      | (true, s') => faw_loop { E with dawg := d2 } fuel ps' s')
    rw [← fw_agree E d2 h fuel 1 [] p.1 p.2 0 s]
    rcases hfw : find_words E fuel 1 [] p.1 p.2 0 s with ⟨b, s'⟩
    cases b
    · rfl
    · exact ih s'

/-- **C9.** The index-0 sentinel is never dereferenced during an
evaluation: two node arrays agreeing at every non-zero index give
`find_all_words` identical results (return value, counters and stored
words), so no DAWG accessor is ever applied at index 0. -/
theorem claim_C9_sentinel_not_read (E : Env) (d2 : Nat → Nat) (t₀ : HashTable)
    (h : ∀ i, i ≠ 0 → E.dawg i = d2 i) :
    find_all_words E t₀ = find_all_words { E with dawg := d2 } t₀ := by
  simp only [find_all_words]
  dsimp only
  rw [show positions { E with dawg := d2 } = positions E from rfl]
  rw [← faw_loop_agree E d2 h]

/-- C9 at a concrete dictionary: corrupting the sentinel entry 0 does not
change the evaluation. -/
theorem claim_C9_witness :
    find_all_words envAT emptyHT
      = find_all_words
          { envAT with dawg := fun i => if i = 0 then 12345 else dawgAT i } emptyHT :=
  claim_C9_sentinel_not_read envAT (fun i => if i = 0 then 12345 else dawgAT i)
    emptyHT (fun i hi => (if_neg hi).symm)

end TBoggle
